import Mathlib

/-!
Verification of the VINO document chunking engine.

Shallow embedding of `src/app/services/chunking_service.py` (together with the
configuration constants of `src/app/core/config.py` and the data model of
`src/app/schemas/models.py`).  Python strings are modelled as `List Char`
(wrapped in `String` at the interfaces), the tiktoken tokenizer is an external
collaborator and is modelled as an abstract token-counting function
`tc : String → Nat` (the code only ever uses `len(encoding.encode(text))`).

The regular-expression substitutions of `cleanup_plaintext` are embedded as
character automata that reproduce Python's `re.sub` scanning semantics
(left-to-right, non-overlapping, lookbehind/lookahead evaluated on the
original string).
-/

namespace Vino

/-- Python `str` whitespace characters (the ASCII ones; all inputs considered
here are ASCII).  Used by `str.strip()`, `str.split()` and the `\s` class. -/
def isPySpace (c : Char) : Bool :=
  c = ' ' || c = '\t' || c = '\n' || c = '\r' || c = '\x0b' || c = '\x0c'

/-- Drop characters satisfying `p` from the end of a list. -/
def trimRight (p : Char → Bool) (l : List Char) : List Char :=
  (l.reverse.dropWhile p).reverse

/-- Python `str.strip()` (strip whitespace from both ends). -/
def trimAll (l : List Char) : List Char :=
  trimRight isPySpace (l.dropWhile isPySpace)

/-- Python `str.strip(chars)` for an explicit character set. -/
def trimSet (set : List Char) (l : List Char) : List Char :=
  trimRight (fun c => set.contains c) (l.dropWhile (fun c => set.contains c))

/-- Does `l` start with `pat`? -/
def startsWithB : List Char → List Char → Bool
  | [], _ => true
  | _ :: _, [] => false
  | p :: ps, c :: cs => p = c && startsWithB ps cs

/-- Does `pat` occur as a contiguous substring of `l`?  (Python `pat in s`.) -/
def hasSubstrL (pat : List Char) : List Char → Bool
  | [] => startsWithB pat []
  | c :: rest => startsWithB pat (c :: rest) || hasSubstrL pat rest

/-- Python `s.replace(pat, "")`: scan left to right, on a match skip the
matched characters and continue after them, otherwise copy one character.
The `fuel` argument only bounds the recursion; every step consumes at least
one character of `l`, so `fuel = l.length` is always sufficient and the
wrappers below call it that way. -/
def replaceEmptyGo (pat : List Char) : Nat → List Char → List Char
  | 0, l => l
  | _ + 1, [] => []
  | fuel + 1, c :: rest =>
    if startsWithB pat (c :: rest) then
      replaceEmptyGo pat fuel ((c :: rest).drop pat.length)
    else
      c :: replaceEmptyGo pat fuel rest

/-- `text.replace("[image]", "")` (first artifact removal of
`cleanup_plaintext`). -/
def removeImage (l : List Char) : List Char :=
  replaceEmptyGo "[image]".data l.length l

/-- `text.replace("[]", "")` (second artifact removal of
`cleanup_plaintext`). -/
def removeBrackets (l : List Char) : List Char :=
  replaceEmptyGo "[]".data l.length l

/-- `LINE_ENDING_PATTERN = re.compile(r'\r\n|\r')`, substituted by `'\n'`:
a `\r\n` pair and a lone `\r` each become one `\n`. -/
def lineEndings : List Char → List Char
  | [] => []
  | [c] => if c = '\r' then ['\n'] else [c]
  | c :: d :: rest =>
    if c = '\r' then
      if d = '\n' then '\n' :: lineEndings rest
      else '\n' :: lineEndings (d :: rest)
    else c :: lineEndings (d :: rest)

/-- The negative lookahead of `NEWLINE_REPLACE_PATTERN = (?<!\n)\n(?!(\n|- ))`:
is the next character a newline, or do the next two characters read `"- "`? -/
def nlKeep : List Char → Bool
  | [] => false
  | [c] => c = '\n'
  | c :: d :: _ => c = '\n' || (c = '-' && d = ' ')

/-- `NEWLINE_REPLACE_PATTERN.sub(' ', text)`: replace a single `\n` by a space
unless it is preceded by `\n` (lookbehind on the original text, tracked by
`pNL`) or followed by `\n` or `"- "`. -/
def nlrGo : Bool → List Char → List Char
  | _, [] => []
  | pNL, c :: rest =>
    if c = '\n' then
      if pNL then '\n' :: nlrGo true rest
      else if nlKeep rest then '\n' :: nlrGo true rest
      else ' ' :: nlrGo true rest
    else c :: nlrGo false rest

/-- `PARAGRAPH_BREAK_PATTERN = re.compile(r'\n{2,}')`, substituted by `"\n\n"`:
of every maximal run of 2 or more newlines only the first two are kept.
`k` counts the newlines of the current run seen so far. -/
def pbGo : Nat → List Char → List Char
  | _, [] => []
  | k, c :: rest =>
    if c = '\n' then
      if 2 ≤ k then pbGo k rest else '\n' :: pbGo (k + 1) rest
    else c :: pbGo 0 rest

/-- `WHITESPACE_PATTERN = re.compile(r'(?<!\n) +')`, substituted by `' '`:
a maximal run of spaces whose first character is not preceded by `\n`
collapses to one space; when the run is preceded by `\n` its first space is
skipped by the lookbehind and the rest of the run collapses to one space.
`aNL` records whether the character before the current space run was `\n`,
`k` counts the spaces of the run processed so far. -/
def wsGo : Bool → Nat → List Char → List Char
  | _, _, [] => []
  | aNL, k, c :: rest =>
    if c = ' ' then
      if k = 0 then ' ' :: wsGo aNL 1 rest
      else if k = 1 ∧ aNL then ' ' :: wsGo aNL 2 rest
      else wsGo aNL k rest
    else c :: wsGo (c = '\n') 0 rest

/-- `cleanup_plaintext` on character lists: the two artifact removals followed
by the four regex substitutions, in source order. -/
def cleanupL (l : List Char) : List Char :=
  wsGo false 0 (pbGo 0 (nlrGo false (lineEndings (removeBrackets (removeImage l)))))

/-- `cleanup_plaintext(text)` (`chunking_service.py`, lines 82–110). -/
def cleanupPlaintext (s : String) : String :=
  ⟨cleanupL s.data⟩

/-- Python `str.strip()` on `String`. -/
def pyStripS (s : String) : String :=
  ⟨trimAll s.data⟩

/-! ## Heading segmenter (`split_text`, lines 112–176) -/

/-- Prepend a character to the first part of a part list (helper for the
splitting automata: the head of the list is the part currently being read). -/
def consCurrent (c : Char) : List (List Char) → List (List Char)
  | [] => [[c]]
  | l :: ls => (c :: l) :: ls

/-- Prepend several characters to the first part. -/
def consMany (cs : List Char) (ls : List (List Char)) : List (List Char) :=
  cs.foldr consCurrent ls

/-- `re.split(r'\r?\n', s)`: split on every newline, an immediately preceding
carriage return being part of the separator. -/
def splitLinesRN : List Char → List (List Char)
  | [] => [[]]
  | '\r' :: '\n' :: rest => [] :: splitLinesRN rest
  | '\n' :: rest => [] :: splitLinesRN rest
  | c :: rest => consCurrent c (splitLinesRN rest)

/-- `text.split("\n\n")`: split on non-overlapping occurrences of a double
newline, scanning left to right. -/
def splitParasL : List Char → List (List Char)
  | '\n' :: '\n' :: rest => [] :: splitParasL rest
  | c :: rest => consCurrent c (splitParasL rest)
  | [] => [[]]

/-- TOC parsing of `split_text`: if `toc.strip()` is falsy no headings are
collected; otherwise each line is cleaned with `line.strip('- \n\r').strip()`
and non-empty results are kept. -/
def parseHeadings (toc : String) : List String :=
  if trimAll toc.data = [] then []
  else
    ((splitLinesRN toc.data).map
        (fun l => trimAll (trimSet ['-', ' ', '\n', '\r'] l))).filterMap
      (fun h => if h = [] then none else some (⟨h⟩ : String))

/-- `" ".join(current_content)`: the parts interleaved with single spaces. -/
def joinSp : List String → String
  | [] => ""
  | [s] => s
  | s :: rest => s ++ " " ++ joinSp rest

/-- `f"{current_heading} [SEP] {combined_content}"`. -/
def mkChunk (h : String) (content : List String) : String :=
  h ++ " [SEP] " ++ joinSp content

/-- The paragraph walk of `split_text` (lines 137–166): state is the remaining
heading pool `hs`, the current heading `curH`, the accumulated body
paragraphs `curC` and the emitted chunks `chunks`; the final cases encode the
post-loop finalisation (lines 159–166). -/
def splitLoop : List String → String → List String → List String → List String → List String
  | _, curH, curC, chunks, [] =>
    chunks ++
      (if curH ≠ "" ∧ curC ≠ [] then [mkChunk curH curC]
       else if curC ≠ [] ∧ curH = "" then [joinSp curC]
       else [])
  | hs, curH, curC, chunks, p :: ps =>
    let para := pyStripS p
    if para = "" then splitLoop hs curH curC chunks ps
    else if hs ≠ [] ∧ para ∈ hs then
      splitLoop (hs.erase para) para []
        (if curH ≠ "" ∧ curC ≠ [] then chunks ++ [mkChunk curH curC] else chunks) ps
    else splitLoop hs curH (curC ++ [para]) chunks ps

/-- `split_text(toc, text)`. -/
def splitTextS (toc text : String) : List String :=
  splitLoop (parseHeadings toc) "" [] []
    ((splitParasL text.data).map (fun l => (⟨l⟩ : String)))

/-! ## Oversized-chunk splitter (`split_oversized_chunk` and helpers,
lines 237–360).  The tiktoken collaborator appears only as
`len(encoding.encode(text))`, modelled by an abstract `tc : String → Nat`. -/

/-- `chunk_text.split("[SEP]", 1)`: `some (before, after)` at the first
occurrence of the literal `[SEP]`, `none` when it does not occur. -/
def splitOnSEP : List Char → Option (List Char × List Char)
  | [] => none
  | c :: rest =>
    if startsWithB "[SEP]".data (c :: rest) then some ([], rest.drop 4)
    else (splitOnSEP rest).map (fun p => (c :: p.1, p.2))

/-- Heading/content extraction of `split_oversized_chunk` (lines 252–259):
when `"[SEP]" in chunk_text` both halves of the 1-split are stripped,
otherwise the heading is empty and the whole text is stripped — the `none`
case of `splitOnSEP` occurs exactly when `[SEP]` is absent. -/
def headingContent (t : String) : String × String :=
  match splitOnSEP t.data with
  | some (h, c) => (⟨trimAll h⟩, ⟨trimAll c⟩)
  | none => ("", ⟨trimAll t.data⟩)

/-- After a digit run: does the tail read `\s*\n` (whitespace, possibly
including newlines, up to a newline)? -/
def wsNl : List Char → Bool
  | [] => false
  | c :: rest => if c = '\n' then true else if isPySpace c then wsNl rest else false

/-- `BULLET_NUMBERED_PATTERN = re.compile(r'\n- |\n\d+\.')`: does a match of
the numbered alternative start right here (after a newline)? -/
def numDotAt (l : List Char) : Bool :=
  let ds := l.takeWhile Char.isDigit
  !ds.isEmpty &&
    (match l.drop ds.length with
     | '.' :: _ => true
     | _ => false)

/-- `BULLET_NUMBERED_PATTERN.search(content)`. -/
def hasBulletL : List Char → Bool
  | [] => false
  | '\n' :: rest =>
    (match rest with
     | '-' :: ' ' :: _ => true
     | _ => numDotAt rest) || hasBulletL rest
  | _ :: rest => hasBulletL rest

/-- Scanner state for `BULLET_NUMBERED_PATTERN.split(content)`:
nothing pending / pending `"\n"` / pending `"\n-"` / pending `"\n"` plus a
(reversed) non-empty digit run. -/
inductive BulState where
  | s0 : BulState
  | s1 : BulState
  | s2 : BulState
  | s3 : List Char → BulState

/-- `re.split(r'\n- |\n\d+\.', content)`: left-to-right non-overlapping
matches are removed and the text between them returned.  Characters that
looked like the start of a separator but were not are flushed into the
current part. -/
def bulletGo : BulState → List Char → List (List Char)
  | .s0, [] => [[]]
  | .s1, [] => consMany ['\n'] [[]]
  | .s2, [] => consMany ['\n', '-'] [[]]
  | .s3 ds, [] => consMany ('\n' :: ds.reverse) [[]]
  | .s0, c :: rest =>
    if c = '\n' then bulletGo .s1 rest else consCurrent c (bulletGo .s0 rest)
  | .s1, c :: rest =>
    if c = '-' then bulletGo .s2 rest
    else if c.isDigit then bulletGo (.s3 [c]) rest
    else if c = '\n' then consMany ['\n'] (bulletGo .s1 rest)
    else consMany ['\n', c] (bulletGo .s0 rest)
  | .s2, c :: rest =>
    if c = ' ' then [] :: bulletGo .s0 rest
    else if c = '\n' then consMany ['\n', '-'] (bulletGo .s1 rest)
    else consMany ['\n', '-', c] (bulletGo .s0 rest)
  | .s3 ds, c :: rest =>
    if c.isDigit then bulletGo (.s3 (c :: ds)) rest
    else if c = '.' then [] :: bulletGo .s0 rest
    else if c = '\n' then consMany ('\n' :: ds.reverse) (bulletGo .s1 rest)
    else consMany ('\n' :: ds.reverse ++ [c]) (bulletGo .s0 rest)

/-- `SENTENCE_SPLIT_PATTERN = re.compile(r'(?<=[.!?])\s+')`, used with
`re.split`: a whitespace run preceded (in the original text) by `.`, `!` or
`?` separates sentences.  `prev` is the original previous character
(`'\x00'` at the start, where the lookbehind fails), `cutting` is true while
the separator run is being consumed. -/
def sentGo : Char → Bool → List Char → List (List Char)
  | _, _, [] => [[]]
  | prev, cutting, c :: rest =>
    if cutting then
      if isPySpace c then sentGo c true rest
      else consCurrent c (sentGo c false rest)
    else
      if isPySpace c && (prev = '.' || prev = '!' || prev = '?') then
        [] :: sentGo c true rest
      else consCurrent c (sentGo c false rest)

/-- `content.split()`: split on whitespace runs, discarding empty results.
`acc` is the reversed current word. -/
def wordsGo (acc : List Char) : List Char → List (List Char)
  | [] => if acc = [] then [] else [acc.reverse]
  | c :: rest =>
    if isPySpace c then
      (if acc = [] then wordsGo [] rest else acc.reverse :: wordsGo [] rest)
    else wordsGo (c :: acc) rest

/-- `f"{heading} [SEP] {cur}".strip() if heading else cur.strip()` — the
chunk-finalisation expression shared by all three splitting strategies. -/
def stratFinal (heading cur : String) : String :=
  if heading ≠ "" then pyStripS (heading ++ " [SEP] " ++ cur) else pyStripS cur

/-- The accumulation loop of `_split_by_list_items` (lines 286–312).  The
first part initialises the accumulator; for each later part the tentative
extension is re-checked against the budget, and on a flush at the *last*
part the accumulator is reset to the empty string (so that part is dropped —
`current_chunk = part if i + 1 < len(parts) else ""`). -/
def listItemsGo (tc : String → Nat) (maxT : Nat) (heading : String) :
    String → List String → List String
  | cur, [] => if pyStripS cur ≠ "" then [stratFinal heading cur] else []
  | cur, p :: rest =>
    let test := cur ++ p
    let testText := if heading ≠ "" then pyStripS (heading ++ " [SEP] " ++ test) else test
    if maxT < tc testText ∧ pyStripS cur ≠ "" then
      stratFinal heading cur ::
        listItemsGo tc maxT heading (if rest ≠ [] then p else "") rest
    else listItemsGo tc maxT heading test rest

/-- `_split_by_list_items(content, heading, max_tokens, encoding)`. -/
def splitByListItems (tc : String → Nat) (maxT : Nat) (content heading : String) :
    List String :=
  match (bulletGo .s0 content.data).map (fun l => (⟨l⟩ : String)) with
  | [] => []
  | p0 :: rest => listItemsGo tc maxT heading p0 rest

/-- The accumulation loop of `_split_by_sentences` (lines 315–338). -/
def sentAccGo (tc : String → Nat) (maxT : Nat) (heading : String) :
    String → List String → List String
  | cur, [] => if pyStripS cur ≠ "" then [stratFinal heading cur] else []
  | cur, s :: rest =>
    let test := if cur ≠ "" then pyStripS (cur ++ " " ++ s) else s
    let testText := if heading ≠ "" then pyStripS (heading ++ " [SEP] " ++ test) else test
    if maxT < tc testText ∧ pyStripS cur ≠ "" then
      stratFinal heading cur :: sentAccGo tc maxT heading s rest
    else sentAccGo tc maxT heading test rest

/-- `_split_by_sentences(content, heading, max_tokens, encoding)`. -/
def splitBySentences (tc : String → Nat) (maxT : Nat) (content heading : String) :
    List String :=
  sentAccGo tc maxT heading ""
    ((sentGo '\x00' false content.data).map (fun l => (⟨l⟩ : String)))

/-- Word groups of `_split_by_words`: `words[i:i+wpc]` for
`i in range(0, len(words), wpc)`.  The `fuel` argument only bounds the
recursion; the wrapper passes `words.length`, which suffices for `wpc ≥ 1`. -/
def wordGroups (wpc : Nat) : Nat → List String → List (List String)
  | _, [] => []
  | 0, l => [l]
  | fuel + 1, l => l.take wpc :: wordGroups wpc fuel (l.drop wpc)

/-- `_split_by_words(content, heading, max_tokens)` (lines 341–355),
with `words_per_chunk = int(max_tokens * 0.75)` (exact: `3 * maxT / 4`).
For `max_tokens ≤ 1` the source's `range(0, len(words), 0)` raises
`ValueError`; that case is modelled as producing no output and all claims
are settled at `max_tokens ≥ 2`, where the branch cannot arise. -/
def splitByWords (maxT : Nat) (content heading : String) : List String :=
  let words := (wordsGo [] content.data).map (fun l => (⟨l⟩ : String))
  let wpc := 3 * maxT / 4
  if wpc = 0 then []
  else
    (wordGroups wpc words.length words).map
      (fun g => stratFinal heading (joinSp g))

/-- Strategy selection of `split_oversized_chunk` (lines 262–270): list
items if the bullet/numbered pattern occurs in the content, else sentences
if the content contains a period, else word groups. -/
def splitStrategies (tc : String → Nat) (maxT : Nat) (t : String) : List String :=
  let hc := headingContent t
  if hasBulletL hc.2.data then splitByListItems tc maxT hc.2 hc.1
  else if hc.2.data.contains '.' then splitBySentences tc maxT hc.2 hc.1
  else splitByWords maxT hc.2 hc.1

/-- `split_oversized_chunk(chunk_text, max_tokens)` (lines 237–283).  The
source recursion has no structural bound (each oversized piece is re-split
by a recursive call), so the embedding carries a fuel counter: `none` means
the recursion did not complete within `fuel` nested levels; a `some` result
is exactly the Python return value. -/
def splitOversizedFuel (tc : String → Nat) (maxT : Nat) : Nat → String → Option (List String)
  | 0, _ => none
  | fuel + 1, t =>
    if tc t ≤ maxT then some [t]
    else
      match (splitStrategies tc maxT t).mapM
          (fun c => if maxT < tc c then splitOversizedFuel tc maxT fuel c else some [c]) with
      | none => none
      | some parts =>
        let final := parts.flatten
        some (if final = [] then [t] else final)

/-! ## Document reader (`identify_doc_type`, `read_doc`, lines 32–80) -/

/-- After the dots of the dotted-leader alternative
`\.{3,}.*\d+\s*\n`: is there, within the current line, a digit followed by
whitespace and a newline? -/
def alt2After : List Char → Bool
  | [] => false
  | c :: rest =>
    if c = '\n' then false
    else if c.isDigit && wsNl rest then true
    else alt2After rest

/-- Does the alternative `- .*\r?\n\r?\n[A-Z]` of `TOC_PATTERN` match at this
position?  (`.` does not cross a newline, so the `\n` matched is the first
newline after the dash marker.) -/
def alt1At : List Char → Bool
  | '-' :: ' ' :: rest =>
    (match rest.dropWhile (fun c => c ≠ '\n') with
     | '\n' :: '\r' :: '\n' :: c :: _ => c.isUpper
     | '\n' :: '\n' :: c :: _ => c.isUpper
     | _ => false)
  | _ => false

/-- Does the alternative `\.{3,}.*\d+\s*\n` of `TOC_PATTERN` match at this
position? -/
def alt2At : List Char → Bool
  | '.' :: '.' :: '.' :: rest => alt2After rest
  | _ => false

/-- `TOC_PATTERN.search(doc)` with
`TOC_PATTERN = re.compile(r'(- .*\r?\n\r?\n[A-Z]|\.{3,}.*\d+\s*\n)')`. -/
def searchTOC : List Char → Bool
  | [] => false
  | c :: rest => alt1At (c :: rest) || alt2At (c :: rest) || searchTOC rest

/-- `identify_doc_type(doc)` (lines 32–42). -/
def identifyDocType (doc : String) : String :=
  if searchTOC doc.data then "TOC_WITHOUT_TITLE" else "NO_TOC_TITLE"

/-- First match of `re.split(r'\r?\n\r?\n', doc, 1)`: the text before the
first (greedily matched) double line break and the text after it. -/
def firstPB : List Char → Option (List Char × List Char)
  | '\r' :: '\n' :: '\r' :: '\n' :: rest => some ([], rest)
  | '\r' :: '\n' :: '\n' :: rest => some ([], rest)
  | '\n' :: '\r' :: '\n' :: rest => some ([], rest)
  | '\n' :: '\n' :: rest => some ([], rest)
  | c :: rest => (firstPB rest).map (fun p => (c :: p.1, p.2))
  | [] => none

/-- `read_doc(path)` (lines 45–80).  The pypandoc conversion is an external
collaborator, modelled by its outcome `conv`: `.error` is the exception case
(caught, yielding `("", "")`), `.ok doc` the converted plain text.  The
source's `doc_type == "TOC_WITH_TITLE"` branch is unreachable dead code
(`identify_doc_type` only returns `"TOC_WITHOUT_TITLE"` or
`"NO_TOC_TITLE"`) and is omitted. -/
def readDoc (conv : Except Unit String) : String × String :=
  match conv with
  | .error _ => ("", "")
  | .ok doc =>
    if identifyDocType doc = "TOC_WITHOUT_TITLE" then
      match firstPB doc.data with
      | some p => ((⟨p.1⟩ : String), (⟨p.2⟩ : String))
      | none => ("", doc)
    else ("", doc)

/-! ## Data model and chunk assembly (`schemas/models.py` lines 12–22,
`chunk_single_file` lines 178–235) -/

/-- `DocumentMetadata` (`schemas/models.py`).  The `section` field is named
`sectionName` here because `section` is a Lean keyword. -/
structure DocumentMetadata where
  doc_id : String
  chunk_index : Nat
  chunk_length : Nat
  sectionName : String
deriving DecidableEq, Repr

/-- `DocumentChunk` (`schemas/models.py`). -/
structure DocumentChunk where
  metadata : DocumentMetadata
  text : String
deriving DecidableEq, Repr

/-- `chunk.split("[SEP]")[0].strip() if "[SEP]" in chunk else "No Heading"`
(line 214): the text before the first `[SEP]`, stripped, or the fallback
label. -/
def sectionOfS (chunk : String) : String :=
  match splitOnSEP chunk.data with
  | some p => (⟨trimAll p.1⟩ : String)
  | none => "No Heading"

/-- The chunk-object loop of `chunk_single_file` (lines 216–233):
`enumerate(final_chunks, 1)` with
`doc_id = f"{filename}_{chunk_number}"`. -/
def buildChunks (tc : String → Nat) (filename : String) : Nat → List String → List DocumentChunk
  | _, [] => []
  | n, c :: cs =>
    { metadata :=
        { doc_id := filename ++ "_" ++ toString n
          chunk_index := n
          chunk_length := tc c
          sectionName := sectionOfS c }
      text := c } :: buildChunks tc filename (n + 1) cs

/-- `chunk_single_file(file_path)` (lines 178–235).  `filename` is
`Path(file_path).stem` (path handling is Python stdlib, taken as input);
`conv` is the pypandoc outcome consumed by `read_doc`; `maxT` is
`settings.MAX_CHUNK_TOKENS` (default 300).  The guard
`if not text and DEBUG_MODE: return []` never fires because `DEBUG_MODE`
is `False` in the source, so an empty text simply flows through the
pipeline.  `none` propagates fuel exhaustion of the oversized splitter. -/
def chunkSingleFileFuel (tc : String → Nat) (maxT fuel : Nat) (filename : String)
    (conv : Except Unit String) : Option (List DocumentChunk) :=
  let tt := readDoc conv
  let cleaned := cleanupPlaintext tt.2
  let textChunks := splitTextS tt.1 cleaned
  match textChunks.mapM (fun c => splitOversizedFuel tc maxT fuel c) with
  | none => none
  | some ls => some (buildChunks tc filename 1 ls.flatten)

/-- `settings.MAX_CHUNK_TOKENS` default (`config.py` line 63). -/
def MAX_CHUNK_TOKENS : Nat := 300

/-- A concrete tokenizer instance used for closed examples: one token per
character.  Any function of this type is a valid instance of the
tokenizer-adapter contract (the code only uses `len(encoding.encode(s))`). -/
def tcLen (s : String) : Nat := s.length

/-! ## Stability checkers for the normalizer passes

These Boolean predicates are verification infrastructure (not part of the
source): each one characterises inputs on which the corresponding pass of
`cleanup_plaintext` is the identity, and each is preserved by the later
passes.  They carry the same scanning state as the pass they mirror. -/

/-- `nlrGo pNL` is the identity on lists where every newline is protected:
preceded by a newline, or followed by a newline or `"- "`. -/
def nlrCheck : Bool → List Char → Bool
  | _, [] => true
  | pNL, c :: rest =>
    if c = '\n' then (pNL || nlKeep rest) && nlrCheck true rest
    else nlrCheck false rest

/-- `pbGo k` is the identity on lists with no newline run longer than two
(counting `k` newlines immediately before the list). -/
def pbCheck : Nat → List Char → Bool
  | _, [] => true
  | k, c :: rest =>
    if c = '\n' then decide (k ≤ 1) && pbCheck (k + 1) rest
    else pbCheck 0 rest

/-- `wsGo aNL k` is the identity on lists where a space only occurs as the
first of a run, or as the second of a run that follows a newline. -/
def wsCheck : Bool → Nat → List Char → Bool
  | _, _, [] => true
  | aNL, k, c :: rest =>
    if c = ' ' then (decide (k = 0) || (decide (k = 1) && aNL)) && wsCheck aNL (k + 1) rest
    else wsCheck (c = '\n') 0 rest

/-- Number of spaces of the current run already emitted by `wsGo aNL k`
(state correspondence between `wsGo` and `wsCheck`). -/
def wsEmitted (aNL : Bool) (k : Nat) : Nat :=
  if k = 0 then 0 else if aNL then min k 2 else 1

/-! ## Helper lemmas: `mapM` over `Option`, stripping, words -/

/-- Every member of the flattened result of a successful `mapM` comes from a
successful application of `g` to some member of the input list. -/
theorem mapM_mem_flatten {g : String → Option (List String)} :
    ∀ (l : List String) (parts : List (List String)), l.mapM g = some parts →
      ∀ c ∈ parts.flatten, ∃ x ∈ l, ∃ res, g x = some res ∧ c ∈ res := by
  intro l
  induction l with
  | nil =>
    intro parts h c hc
    simp only [List.mapM_nil, pure] at h
    cases h
    simp at hc
  | cons x xs ih =>
    intro parts h c hc
    rw [List.mapM_cons] at h
    simp only [bind, Option.bind_eq_some, pure, Option.some.injEq] at h
    obtain ⟨r, hr, rs, hrs, rfl⟩ := h
    rw [List.flatten_cons, List.mem_append] at hc
    rcases hc with hc | hc
    · exact ⟨x, List.mem_cons_self x xs, r, hr, hc⟩
    · obtain ⟨y, hy, res, hres, hcres⟩ := ih rs hrs c hc
      exact ⟨y, List.mem_cons_of_mem x hy, res, hres, hcres⟩

/-- If every piece list produced by `g` is non-empty, an empty flattened
result forces an empty input list. -/
theorem mapM_flatten_nil {g : String → Option (List String)} :
    ∀ (l : List String) (parts : List (List String)), l.mapM g = some parts →
      (∀ x ∈ l, ∀ res, g x = some res → res ≠ []) → parts.flatten = [] → l = [] := by
  intro l
  induction l with
  | nil => intro _ _ _ _; rfl
  | cons x xs _ =>
    intro parts h hne hfl
    rw [List.mapM_cons] at h
    simp only [bind, Option.bind_eq_some, pure, Option.some.injEq] at h
    obtain ⟨r, hr, rs, _, rfl⟩ := h
    rw [List.flatten_cons, List.append_eq_nil] at hfl
    exact absurd hfl.1 (hne x (List.mem_cons_self x xs) r hr)

/-- The head of a `dropWhile` result does not satisfy the predicate. -/
theorem dropWhile_head_false {p : Char → Bool} :
    ∀ (l : List Char) (c : Char) (y : List Char), l.dropWhile p = c :: y → p c = false := by
  intro l
  induction l with
  | nil => intro c y h; cases h
  | cons a rest ih =>
    intro c y h
    rw [List.dropWhile_cons] at h
    by_cases ha : p a = true
    · exact ih c y (by rwa [if_pos ha] at h)
    · rw [if_neg ha] at h
      cases h
      exact Bool.eq_false_iff.mpr ha

/-- `trimRight` keeps a prefix of the list. -/
theorem trimRight_append (p : Char → Bool) (l : List Char) :
    trimRight p l ++ (l.reverse.takeWhile p).reverse = l := by
  unfold trimRight
  rw [← List.reverse_append, List.takeWhile_append_dropWhile, List.reverse_reverse]

/-- `trimAll` is empty exactly when every character is whitespace. -/
theorem trimAll_eq_nil_iff (l : List Char) :
    trimAll l = [] ↔ ∀ c ∈ l, isPySpace c = true := by
  unfold trimAll trimRight
  constructor
  · intro h c hc
    rw [List.reverse_eq_nil_iff, List.dropWhile_eq_nil_iff] at h
    rcases List.mem_append.mp
        ((List.takeWhile_append_dropWhile isPySpace l ▸ hc) : c ∈ _ ++ _) with h1 | h1
    · exact List.mem_takeWhile_imp h1
    · exact h c (List.mem_reverse.mpr h1)
  · intro h
    have h1 : l.dropWhile isPySpace = [] :=
      List.dropWhile_eq_nil_iff.mpr (fun x hx => h x hx)
    rw [h1]
    rfl

/-- A non-empty `trimAll` result starts with a non-whitespace character. -/
theorem trimAll_head_not_space (l : List Char) (c : Char) (y : List Char)
    (h : trimAll l = c :: y) : isPySpace c = false := by
  unfold trimAll at h
  have hpre := trimRight_append isPySpace (l.dropWhile isPySpace)
  rw [h] at hpre
  cases hd : (l.dropWhile isPySpace) with
  | nil => rw [hd] at hpre; cases hpre
  | cons a rest =>
    rw [hd] at hpre
    have : c = a := by
      have := congrArg (fun x => x.head?) hpre
      simpa using this
    subst this
    exact dropWhile_head_false l c rest hd

/-- Stripping an already non-trivially-strippable list stays non-empty. -/
theorem trimAll_trimAll_ne (l : List Char) (h : trimAll l ≠ []) :
    trimAll (trimAll l) ≠ [] := by
  cases hc : trimAll l with
  | nil => exact absurd hc h
  | cons c y =>
    intro hcon
    have := (trimAll_eq_nil_iff (c :: y)).mp (hc ▸ hcon)
    have hcs := this c (List.mem_cons_self c y)
    rw [trimAll_head_not_space l c y hc] at hcs
    cases hcs

/-- A list containing a non-whitespace character does not strip to empty. -/
theorem trimAll_ne_nil_of_mem (l : List Char) (c : Char) (hc : c ∈ l)
    (hs : isPySpace c = false) : trimAll l ≠ [] := by
  intro h
  have := (trimAll_eq_nil_iff l).mp h c hc
  rw [hs] at this
  cases this

/-- `pyStripS s` is non-empty iff `trimAll s.data` is. -/
theorem pyStripS_ne_iff (s : String) : pyStripS s ≠ "" ↔ trimAll s.data ≠ [] := by
  unfold pyStripS
  constructor
  · intro h hcon
    exact h (congrArg String.mk hcon)
  · intro h hcon
    exact h (congrArg String.data hcon)

/-- The data of the separator-injected heading format contains `'['`. -/
theorem sep_bracket_mem (h cur : String) :
    '[' ∈ (h ++ " [SEP] " ++ cur).data := by
  rw [String.data_append, String.data_append]
  refine List.mem_append.mpr (Or.inl (List.mem_append.mpr (Or.inr ?_)))
  decide

/-- Every strategy finalisation is non-whitespace: with a heading the result
contains the bracket of `[SEP]`; without a heading the guard on the stripped
accumulator carries over. -/
theorem stratFinal_strip (heading cur : String)
    (hguard : heading = "" → trimAll cur.data ≠ []) :
    trimAll (stratFinal heading cur).data ≠ [] := by
  unfold stratFinal
  by_cases hh : heading = ""
  · rw [if_neg (by simp [hh])]
    exact trimAll_trimAll_ne cur.data (hguard hh)
  · rw [if_pos hh]
    refine trimAll_trimAll_ne _ ?_
    exact trimAll_ne_nil_of_mem _ '[' (sep_bracket_mem heading cur) (by decide)

/-- Every piece emitted by the list-item accumulation loop is
non-whitespace. -/
theorem listItemsGo_strip (tc : String → Nat) (maxT : Nat) (heading : String) :
    ∀ (parts : List String) (cur c : String),
      c ∈ listItemsGo tc maxT heading cur parts → trimAll c.data ≠ [] := by
  intro parts
  induction parts with
  | nil =>
    intro cur c hc
    unfold listItemsGo at hc
    by_cases hg : pyStripS cur ≠ ""
    · rw [if_pos hg] at hc
      rcases List.mem_singleton.mp hc with rfl
      exact stratFinal_strip heading cur (fun _ => (pyStripS_ne_iff cur).mp hg)
    · rw [if_neg hg] at hc
      cases hc
  | cons p rest ih =>
    intro cur c hc
    unfold listItemsGo at hc
    by_cases hcond : maxT < tc (if heading ≠ "" then pyStripS (heading ++ " [SEP] " ++ (cur ++ p)) else cur ++ p) ∧ pyStripS cur ≠ ""
    · rw [if_pos hcond] at hc
      rcases List.mem_cons.mp hc with rfl | hc
      · exact stratFinal_strip heading cur (fun _ => (pyStripS_ne_iff cur).mp hcond.2)
      · exact ih _ c hc
    · rw [if_neg hcond] at hc
      exact ih _ c hc

/-- Every piece emitted by the sentence accumulation loop is
non-whitespace. -/
theorem sentAccGo_strip (tc : String → Nat) (maxT : Nat) (heading : String) :
    ∀ (sents : List String) (cur c : String),
      c ∈ sentAccGo tc maxT heading cur sents → trimAll c.data ≠ [] := by
  intro sents
  induction sents with
  | nil =>
    intro cur c hc
    unfold sentAccGo at hc
    by_cases hg : pyStripS cur ≠ ""
    · rw [if_pos hg] at hc
      rcases List.mem_singleton.mp hc with rfl
      exact stratFinal_strip heading cur (fun _ => (pyStripS_ne_iff cur).mp hg)
    · rw [if_neg hg] at hc
      cases hc
  | cons s rest ih =>
    intro cur c hc
    unfold sentAccGo at hc
    by_cases hcond : maxT < tc (if heading ≠ "" then
        pyStripS (heading ++ " [SEP] " ++ (if cur ≠ "" then pyStripS (cur ++ " " ++ s) else s))
        else (if cur ≠ "" then pyStripS (cur ++ " " ++ s) else s)) ∧ pyStripS cur ≠ ""
    · rw [if_pos hcond] at hc
      rcases List.mem_cons.mp hc with rfl | hc
      · exact stratFinal_strip heading cur (fun _ => (pyStripS_ne_iff cur).mp hcond.2)
      · exact ih _ c hc
    · rw [if_neg hcond] at hc
      exact ih _ c hc

/-- Words produced by `content.split()` are non-empty and contain no
whitespace. -/
theorem wordsGo_mem :
    ∀ (l acc : List Char), (∀ a ∈ acc, isPySpace a = false) →
      ∀ w ∈ wordsGo acc l, w ≠ [] ∧ ∀ ch ∈ w, isPySpace ch = false := by
  intro l
  induction l with
  | nil =>
    intro acc hacc w hw
    unfold wordsGo at hw
    by_cases ha : acc = []
    · rw [if_pos ha] at hw; cases hw
    · rw [if_neg ha] at hw
      rcases List.mem_singleton.mp hw with rfl
      constructor
      · simpa using ha
      · intro ch hch
        exact hacc ch (List.mem_reverse.mp hch)
  | cons c rest ih =>
    intro acc hacc w hw
    unfold wordsGo at hw
    by_cases hs : isPySpace c = true
    · rw [if_pos hs] at hw
      by_cases ha : acc = []
      · rw [if_pos ha] at hw
        exact ih [] (by simp) w hw
      · rw [if_neg ha] at hw
        rcases List.mem_cons.mp hw with rfl | hw
        · exact ⟨by simpa using ha, fun ch hch => hacc ch (List.mem_reverse.mp hch)⟩
        · exact ih [] (by simp) w hw
    · rw [if_neg hs] at hw
      refine ih (c :: acc) ?_ w hw
      intro a ha
      rcases List.mem_cons.mp ha with rfl | ha
      · exact Bool.eq_false_iff.mpr hs
      · exact hacc a ha

/-- Word groups are non-empty sublists of the word list (for a positive
group size). -/
theorem wordGroups_mem (wpc : Nat) (hw : 1 ≤ wpc) :
    ∀ (fuel : Nat) (l : List String), ∀ g ∈ wordGroups wpc fuel l,
      g ≠ [] ∧ ∀ w ∈ g, w ∈ l := by
  intro fuel
  induction fuel with
  | zero =>
    intro l g hg
    cases l with
    | nil => cases hg
    | cons x xs =>
      rcases List.mem_singleton.mp hg with rfl
      exact ⟨by simp, fun w h => h⟩
  | succ f ih =>
    intro l g hg
    cases l with
    | nil => cases hg
    | cons x xs =>
      rcases List.mem_cons.mp hg with rfl | hg
      · refine ⟨?_, fun w h => List.take_subset wpc (x :: xs) h⟩
        intro hcon
        rcases List.take_eq_nil_iff.mp hcon with h0 | h0
        · omega
        · cases h0
      · obtain ⟨hne, hsub⟩ := ih (List.drop wpc (x :: xs)) g hg
        exact ⟨hne, fun w h => List.drop_subset wpc (x :: xs) (hsub w h)⟩

/-- `joinSp` of a non-empty list starts with its first element. -/
theorem joinSp_cons_data (w : String) (ws : List String) :
    ∃ t, (joinSp (w :: ws)).data = w.data ++ t := by
  cases ws with
  | nil => exact ⟨[], by simp [joinSp]⟩
  | cons x t =>
    refine ⟨" ".data ++ (joinSp (x :: t)).data, ?_⟩
    show ((w ++ " ") ++ joinSp (x :: t)).data = _
    rw [String.data_append, String.data_append, List.append_assoc]

/-- Every piece emitted by the word-count strategy is non-whitespace. -/
theorem splitByWords_strip (maxT : Nat) (content heading : String) :
    ∀ c ∈ splitByWords maxT content heading, trimAll c.data ≠ [] := by
  intro c hc
  unfold splitByWords at hc
  by_cases hz : 3 * maxT / 4 = 0
  · rw [if_pos hz] at hc; cases hc
  · rw [if_neg hz] at hc
    rw [List.mem_map] at hc
    obtain ⟨g, hg, rfl⟩ := hc
    refine stratFinal_strip heading (joinSp g) ?_
    intro _
    obtain ⟨hgne, hgsub⟩ :=
      wordGroups_mem (3 * maxT / 4) (by omega) _ _ g hg
    cases g with
    | nil => exact absurd rfl hgne
    | cons w ws =>
      have hwmem : w ∈ (wordsGo [] content.data).map (fun l => (⟨l⟩ : String)) :=
        hgsub w (List.mem_cons_self w ws)
      rw [List.mem_map] at hwmem
      obtain ⟨wl, hwl, rfl⟩ := hwmem
      obtain ⟨hwne, hwch⟩ := wordsGo_mem content.data [] (by simp) wl hwl
      obtain ⟨t, ht⟩ := joinSp_cons_data ⟨wl⟩ ws
      cases wl with
      | nil => exact absurd rfl hwne
      | cons ch rest =>
        refine trimAll_ne_nil_of_mem _ ch ?_ (hwch ch (List.mem_cons_self ch rest))
        rw [ht]
        exact List.mem_append.mpr (Or.inl (List.mem_cons_self ch rest))

/-- Every piece produced by any of the three splitting strategies is
non-whitespace (its `strip()` is non-empty). -/
theorem splitStrategies_strip (tc : String → Nat) (maxT : Nat) (t : String) :
    ∀ c ∈ splitStrategies tc maxT t, trimAll c.data ≠ [] := by
  intro c hc
  unfold splitStrategies at hc
  by_cases h1 : hasBulletL (headingContent t).2.data = true
  · rw [if_pos h1] at hc
    unfold splitByListItems at hc
    cases hbg : (bulletGo BulState.s0 (headingContent t).2.data).map
        (fun l => (⟨l⟩ : String)) with
    | nil => rw [hbg] at hc; cases hc
    | cons p0 rest =>
      rw [hbg] at hc
      exact listItemsGo_strip tc maxT (headingContent t).1 rest p0 c hc
  · rw [if_neg h1] at hc
    by_cases h2 : (headingContent t).2.data.contains '.' = true
    · rw [if_pos h2] at hc
      exact sentAccGo_strip tc maxT (headingContent t).1 _ "" c hc
    · rw [if_neg h2] at hc
      exact splitByWords_strip maxT (headingContent t).2 (headingContent t).1 c hc

/-- A successful run of the oversized splitter returns a non-empty piece
list. -/
theorem splitFuel_ne_nil (tc : String → Nat) (maxT : Nat) :
    ∀ (fuel : Nat) (t : String) (r : List String),
      splitOversizedFuel tc maxT fuel t = some r → r ≠ [] := by
  intro fuel
  induction fuel with
  | zero => intro t r h; cases h
  | succ f _ =>
    intro t r h
    by_cases hle : tc t ≤ maxT
    · rw [splitOversizedFuel, if_pos hle] at h
      cases h
      simp
    · rw [splitOversizedFuel, if_neg hle] at h
      cases hm : (splitStrategies tc maxT t).mapM
          (fun c => if maxT < tc c then splitOversizedFuel tc maxT f c else some [c]) with
      | none => rw [hm] at h; cases h
      | some parts =>
        rw [hm] at h
        cases h
        by_cases hfl : parts.flatten = []
        · simp [hfl]
        · simp [hfl]

/-- Budget invariant of the oversized splitter: every piece of a successful
run is within budget, except pieces for which no splitting strategy produces
any output at all (no further split point exists). -/
theorem splitFuel_budget (tc : String → Nat) (maxT : Nat) :
    ∀ (fuel : Nat) (t : String) (r : List String),
      splitOversizedFuel tc maxT fuel t = some r →
      ∀ c ∈ r, tc c ≤ maxT ∨ splitStrategies tc maxT c = [] := by
  intro fuel
  induction fuel with
  | zero => intro t r h; cases h
  | succ f ih =>
    intro t r h c hc
    by_cases hle : tc t ≤ maxT
    · rw [splitOversizedFuel, if_pos hle] at h
      cases h
      rcases List.mem_singleton.mp hc with rfl
      exact Or.inl hle
    · rw [splitOversizedFuel, if_neg hle] at h
      cases hm : (splitStrategies tc maxT t).mapM
          (fun c => if maxT < tc c then splitOversizedFuel tc maxT f c else some [c]) with
      | none => rw [hm] at h; cases h
      | some parts =>
        rw [hm] at h
        cases h
        by_cases hfl : parts.flatten = []
        · rw [if_pos hfl] at hc
          rcases List.mem_singleton.mp hc with rfl
          refine Or.inr (mapM_flatten_nil _ parts hm ?_ hfl)
          intro x _ res hres
          by_cases hx : maxT < tc x
          · rw [if_pos hx] at hres
            exact splitFuel_ne_nil tc maxT f x res hres
          · rw [if_neg hx] at hres
            cases hres
            simp
        · rw [if_neg hfl] at hc
          obtain ⟨x, _, res, hres, hcres⟩ := mapM_mem_flatten _ parts hm c hc
          by_cases hx : maxT < tc x
          · rw [if_pos hx] at hres
            exact ih x res hres c hcres
          · rw [if_neg hx] at hres
            cases hres
            rcases List.mem_singleton.mp hcres with rfl
            exact Or.inl (by omega)

/-- Structural invariant of the oversized splitter used for C10: every piece
of a successful run is the unchanged input or has a non-empty `strip()`. -/
theorem splitFuel_pieces (tc : String → Nat) (maxT : Nat) :
    ∀ (fuel : Nat) (t : String) (r : List String),
      splitOversizedFuel tc maxT fuel t = some r →
      ∀ p ∈ r, p = t ∨ trimAll p.data ≠ [] := by
  intro fuel
  induction fuel with
  | zero => intro t r h; cases h
  | succ f ih =>
    intro t r h p hp
    by_cases hle : tc t ≤ maxT
    · rw [splitOversizedFuel, if_pos hle] at h
      cases h
      rcases List.mem_singleton.mp hp with rfl
      exact Or.inl rfl
    · rw [splitOversizedFuel, if_neg hle] at h
      cases hm : (splitStrategies tc maxT t).mapM
          (fun c => if maxT < tc c then splitOversizedFuel tc maxT f c else some [c]) with
      | none => rw [hm] at h; cases h
      | some parts =>
        rw [hm] at h
        cases h
        by_cases hfl : parts.flatten = []
        · rw [if_pos hfl] at hp
          rcases List.mem_singleton.mp hp with rfl
          exact Or.inl rfl
        · rw [if_neg hfl] at hp
          obtain ⟨x, hx, res, hres, hpres⟩ := mapM_mem_flatten _ parts hm p hp
          have hxstrip : trimAll x.data ≠ [] := splitStrategies_strip tc maxT t x hx
          by_cases hxlt : maxT < tc x
          · rw [if_pos hxlt] at hres
            rcases ih x res hres p hpres with rfl | hps
            · exact Or.inr hxstrip
            · exact Or.inr hps
          · rw [if_neg hxlt] at hres
            cases hres
            rcases List.mem_singleton.mp hpres with rfl
            exact Or.inr hxstrip

/-- Chunk texts of the assembled chunk objects come from the piece list. -/
theorem buildChunks_text_mem (tc : String → Nat) (filename : String) :
    ∀ (l : List String) (n : Nat) (dc : DocumentChunk),
      dc ∈ buildChunks tc filename n l → dc.text ∈ l := by
  intro l
  induction l with
  | nil => intro n dc h; cases h
  | cons c cs ih =>
    intro n dc h
    rcases List.mem_cons.mp h with rfl | h
    · exact List.mem_cons_self c cs
    · exact List.mem_cons_of_mem c (ih (n + 1) dc h)

/-! ## Claim C2: token-budget invariant -/

/-- C2: every chunk emitted by `chunk_single_file` has a token count within
the configured budget, except chunks on which no splitting strategy produces
any piece at all (no further split point — the irreducible overflow case the
claim excepts; such chunks trivially cannot be brought under budget by any
strategy).  Stated for every tokenizer `tc`, budget, fuel (a `some` result
is exactly the Python return value), filename and conversion outcome. -/
theorem c2_token_budget (tc : String → Nat) (maxT fuel : Nat) (filename : String)
    (conv : Except Unit String) (r : List DocumentChunk)
    (h : chunkSingleFileFuel tc maxT fuel filename conv = some r) :
    ∀ dc ∈ r, tc dc.text ≤ maxT ∨ splitStrategies tc maxT dc.text = [] := by
  intro dc hdc
  have h' : (match (splitTextS (readDoc conv).1 (cleanupPlaintext (readDoc conv).2)).mapM
      (fun c => splitOversizedFuel tc maxT fuel c) with
    | none => none
    | some ls => some (buildChunks tc filename 1 ls.flatten)) = some r := h
  clear h
  cases hm : (splitTextS (readDoc conv).1 (cleanupPlaintext (readDoc conv).2)).mapM
      (fun c => splitOversizedFuel tc maxT fuel c) with
  | none => rw [hm] at h'; cases h'
  | some ls =>
    rw [hm] at h'
    cases h'
    have htext := buildChunks_text_mem tc filename ls.flatten 1 dc hdc
    obtain ⟨x, _, res, hres, hmem⟩ := mapM_mem_flatten _ ls hm dc.text htext
    exact splitFuel_budget tc maxT fuel x res hres dc.text hmem

/-- C2 witness: a concrete run.  With the character-count tokenizer, budget
300 and the document `"hello world"`, the single emitted chunk satisfies the
budget invariant. -/
theorem c2_token_budget_witness :
    tcLen (DocumentChunk.mk (DocumentMetadata.mk "f_1" 1 11 "No Heading") "hello world").text ≤ 300 ∨
    splitStrategies tcLen 300
      (DocumentChunk.mk (DocumentMetadata.mk "f_1" 1 11 "No Heading") "hello world").text = [] :=
  c2_token_budget tcLen 300 2 "f" (.ok "hello world")
    [DocumentChunk.mk (DocumentMetadata.mk "f_1" 1 11 "No Heading") "hello world"]
    (by decide)
    (DocumentChunk.mk (DocumentMetadata.mk "f_1" 1 11 "No Heading") "hello world")
    (List.mem_singleton.mpr rfl)

/-! ## Claim C1: content loss in `_split_by_list_items` -/

/-- C1 (code bug): the oversized-chunk splitter drops the final list item.
On the segment `"aaaa\n- bbbb\n- cccc"` with a budget of 7 tokens (one token
per character) the list-item strategy flushes the accumulator at the last
part and then resets it to the empty string
(`current_chunk = part if i + 1 < len(parts) else ""`), so the words of the
last item `"cccc"` appear in no emitted piece — contradicting the claim that
concatenating the emitted bodies reproduces the original body with no
dropped words. -/
theorem c1_last_list_item_dropped :
    splitOversizedFuel tcLen 7 5 "aaaa\n- bbbb\n- cccc" = some ["aaaa", "bbbb"] ∧
    hasSubstrL "cccc".data "aaaa".data = false ∧
    hasSubstrL "cccc".data "bbbb".data = false := by
  decide

/-! ## Claim C3: non-termination on irreducible units -/

/-- C3 (code bug): on a single indivisible unit that exceeds the budget the
splitter does not accept it as-is but recurses forever on the identical
string.  With a one-token-per-character tokenizer and `max_tokens = 3`, the
single word `"aaaaa"` is over budget, the word-count strategy returns it
unchanged, and the recursive re-check calls `split_oversized_chunk` on the
very same string: no amount of fuel produces a result (in Python this is a
`RecursionError`). -/
theorem c3_no_termination :
    ∀ fuel : Nat, splitOversizedFuel tcLen 3 fuel "aaaaa" = none := by
  intro fuel
  induction fuel with
  | zero => rfl
  | succ f ih =>
    have hstrat : splitStrategies tcLen 3 "aaaaa" = ["aaaaa"] := by decide
    have hle : ¬ tcLen "aaaaa" ≤ 3 := by decide
    have hlt : 3 < tcLen "aaaaa" := by decide
    simp only [splitOversizedFuel, if_neg hle, hstrat, List.mapM_cons, List.mapM_nil,
      if_pos hlt, ih, Option.bind_eq_bind, Option.none_bind, Option.bind_none]

/-! ## Idempotence machinery for the normalizer (claim C4) -/

/-- A replace pass with no occurrence of the pattern is the identity. -/
theorem replaceEmptyGo_id (pat : List Char) :
    ∀ (fuel : Nat) (l : List Char), hasSubstrL pat l = false → replaceEmptyGo pat fuel l = l := by
  intro fuel
  induction fuel with
  | zero => intro l _; rfl
  | succ f ih =>
    intro l h
    cases l with
    | nil => rfl
    | cons c rest =>
      rw [hasSubstrL, Bool.or_eq_false_iff] at h
      rw [replaceEmptyGo, if_neg (by simp [h.1]), ih rest h.2]

/-- `nlrGo` is the identity on `nlrCheck`-stable lists. -/
theorem nlrCheck_id : ∀ (l : List Char) (pNL : Bool), nlrCheck pNL l = true → nlrGo pNL l = l := by
  intro l
  induction l with
  | nil => intro pNL _; rfl
  | cons c rest ih =>
    intro pNL h
    by_cases hc : c = '\n'
    · subst hc
      rw [nlrCheck, if_pos rfl, Bool.and_eq_true] at h
      rw [nlrGo, if_pos rfl]
      cases hp : pNL with
      | true => rw [if_pos rfl, ih true h.2]
      | false =>
        rw [hp] at h
        have hk : nlKeep rest = true := by simpa using h.1
        rw [if_neg (by simp), if_pos hk, ih true h.2]
    · rw [nlrCheck, if_neg hc] at h
      rw [nlrGo, if_neg hc, ih false h]

/-- `pbGo` is the identity on `pbCheck`-stable lists. -/
theorem pbCheck_id : ∀ (l : List Char) (k : Nat), pbCheck k l = true → pbGo k l = l := by
  intro l
  induction l with
  | nil => intro k _; rfl
  | cons c rest ih =>
    intro k h
    by_cases hc : c = '\n'
    · subst hc
      rw [pbCheck, if_pos rfl, Bool.and_eq_true] at h
      have hk : k ≤ 1 := by simpa using h.1
      rw [pbGo, if_pos rfl, if_neg (by omega), ih (k + 1) h.2]
    · rw [pbCheck, if_neg hc] at h
      rw [pbGo, if_neg hc, ih 0 h]

/-- `wsGo` is the identity on `wsCheck`-stable lists. -/
theorem wsCheck_id : ∀ (l : List Char) (aNL : Bool) (k : Nat),
    wsCheck aNL k l = true → wsGo aNL k l = l := by
  intro l
  induction l with
  | nil => intro aNL k _; rfl
  | cons c rest ih =>
    intro aNL k h
    by_cases hc : c = ' '
    · subst hc
      rw [wsCheck, if_pos rfl, Bool.and_eq_true] at h
      have hcond := h.1
      by_cases hk : k = 0
      · subst hk
        rw [wsGo, if_pos rfl, if_pos rfl, ih aNL 1 h.2]
      · have hk1 : k = 1 ∧ aNL = true := by
          rcases Bool.or_eq_true_iff.mp hcond with h1 | h1
          · exact absurd (by simpa using h1) hk
          · rw [Bool.and_eq_true] at h1
            exact ⟨by simpa using h1.1, h1.2⟩
        obtain ⟨hkeq, haNL⟩ := hk1
        subst hkeq
        rw [wsGo, if_pos rfl, if_neg hk, if_pos ⟨rfl, haNL⟩]
        rw [ih aNL 2 h.2]
    · rw [wsCheck, if_neg hc] at h
      rw [wsGo, if_neg hc, ih (c = '\n') 0 h]

/-- `lineEndings` is the identity on carriage-return-free lists. -/
theorem lineEndings_id : ∀ (l : List Char), (∀ c ∈ l, c ≠ '\r') → lineEndings l = l := by
  intro l
  induction l with
  | nil => intro _; rfl
  | cons c rest ih =>
    intro h
    have hc : c ≠ '\r' := h c (List.mem_cons_self c rest)
    cases rest with
    | nil => rw [lineEndings, if_neg hc]
    | cons d rest2 =>
      rw [lineEndings, if_neg hc, ih (fun a ha => h a (List.mem_cons_of_mem c ha))]

/-- Inversion for a positive lookahead: the protected shapes. -/
theorem nlKeep_true_cases (l : List Char) (h : nlKeep l = true) :
    (∃ r, l = '\n' :: r) ∨ (∃ r, l = '-' :: ' ' :: r) := by
  match l with
  | [] => cases h
  | [c] =>
    have : c = '\n' := by simpa [nlKeep] using h
    exact Or.inl ⟨[], by rw [this]⟩
  | c :: d :: r =>
    have : c = '\n' ∨ (c = '-' ∧ d = ' ') := by simpa [nlKeep] using h
    rcases this with h1 | ⟨h1, h2⟩
    · exact Or.inl ⟨d :: r, by rw [h1]⟩
    · exact Or.inr ⟨r, by rw [h1, h2]⟩

/-- A list starting with a newline satisfies the lookahead. -/
theorem nlKeep_newline (x : List Char) : nlKeep ('\n' :: x) = true := by
  cases x <;> simp [nlKeep]

/-- A list starting with `"- "` satisfies the lookahead. -/
theorem nlKeep_dash (x : List Char) : nlKeep ('-' :: ' ' :: x) = true := by
  simp [nlKeep]

/-- The output of `nlrGo` is `nlrCheck`-stable: every surviving newline is
protected in the output as well.  The side condition rules out the
impossible state combination "previous original character was a newline but
the previous output character is not" at a newline. -/
theorem nlrOut : ∀ (l : List Char) (pNL pb : Bool),
    (pb = false → pNL = false ∨ l.head? ≠ some '\n') →
    nlrCheck pb (nlrGo pNL l) = true := by
  intro l
  induction l with
  | nil => intro pNL pb _; rfl
  | cons c rest ih =>
    intro pNL pb hpre
    by_cases hc : c = '\n'
    · subst hc
      by_cases hp : pNL = true
      · have hpb : pb = true := by
          by_contra hpb
          have hpb' : pb = false := by simpa using hpb
          rcases hpre hpb' with h1 | h1
          · rw [hp] at h1; cases h1
          · exact h1 rfl
        subst hpb
        rw [nlrGo, if_pos rfl, if_pos hp]
        rw [nlrCheck, if_pos rfl]
        rw [ih true true (fun hcon => by cases hcon)]
        simp
      · have hp' : pNL = false := by simpa using hp
        by_cases hk : nlKeep rest = true
        · rw [nlrGo, if_pos rfl, if_neg (by simp [hp']), if_pos hk]
          rw [nlrCheck, if_pos rfl]
          have hout : nlKeep (nlrGo true rest) = true := by
            rcases nlKeep_true_cases rest hk with ⟨r, rfl⟩ | ⟨r, rfl⟩
            · rw [nlrGo, if_pos rfl, if_pos rfl]
              exact nlKeep_newline _
            · rw [nlrGo, if_neg (by decide)]
              rw [nlrGo, if_neg (by decide)]
              exact nlKeep_dash _
          rw [ih true true (fun hcon => by cases hcon), hout]
          simp
        · rw [nlrGo, if_pos rfl, if_neg (by simp [hp']), if_neg hk]
          rw [nlrCheck, if_neg (by decide)]
          refine ih true false (fun _ => Or.inr ?_)
          intro hcon
          cases rest with
          | nil => cases hcon
          | cons r0 rr =>
            have : r0 = '\n' := by simpa using hcon
            subst this
            exact hk (nlKeep_newline rr)
    · rw [nlrGo, if_neg hc]
      rw [nlrCheck, if_neg hc]
      exact ih false false (fun _ => Or.inl rfl)

/-- The output of `pbGo` is `pbCheck`-stable: no newline run of length three
or more survives. -/
theorem pbOut : ∀ (l : List Char) (k : Nat), pbCheck (min k 2) (pbGo k l) = true := by
  intro l
  induction l with
  | nil => intro k; rfl
  | cons c rest ih =>
    intro k
    by_cases hc : c = '\n'
    · subst hc
      by_cases h2 : 2 ≤ k
      · rw [pbGo, if_pos rfl, if_pos h2]
        have := ih k
        rwa [Nat.min_eq_right h2] at this ⊢
      · rw [pbGo, if_pos rfl, if_neg h2]
        rw [pbCheck, if_pos rfl]
        have hmin : min k 2 = k := Nat.min_eq_left (by omega)
        have hmin1 : min (k + 1) 2 = k + 1 := Nat.min_eq_left (by omega)
        rw [hmin]
        have := ih (k + 1)
        rw [hmin1] at this
        rw [this]
        simp
        omega
    · rw [pbGo, if_neg hc]
      rw [pbCheck, if_neg hc]
      have := ih 0
      simpa using this

/-- The output of `wsGo` is `wsCheck`-stable. -/
theorem wsOut : ∀ (l : List Char) (aNL : Bool) (k : Nat),
    wsCheck aNL (wsEmitted aNL k) (wsGo aNL k l) = true := by
  intro l
  induction l with
  | nil => intro aNL k; cases wsEmitted aNL k <;> rfl
  | cons c rest ih =>
    intro aNL k
    by_cases hc : c = ' '
    · subst hc
      by_cases hk : k = 0
      · subst hk
        rw [wsGo, if_pos rfl, if_pos rfl]
        rw [show wsEmitted aNL 0 = 0 from rfl]
        rw [wsCheck, if_pos rfl]
        have := ih aNL 1
        have he1 : wsEmitted aNL 1 = 1 := by
          cases aNL <;> decide
        rw [he1] at this
        rw [this]
        simp
      · by_cases hk1 : k = 1 ∧ aNL
        · obtain ⟨hkeq, haNL⟩ := hk1
          subst hkeq
          subst haNL
          rw [wsGo, if_pos rfl, if_neg hk, if_pos ⟨rfl, rfl⟩]
          rw [show wsEmitted true 1 = 1 from by decide, wsCheck, if_pos rfl]
          have := ih true 2
          rw [show wsEmitted true 2 = 2 from by decide] at this
          rw [this]
          simp
        · rw [wsGo, if_pos rfl, if_neg hk, if_neg hk1]
          exact ih aNL k
    · rw [wsGo, if_neg hc]
      rw [wsCheck, if_neg hc]
      have := ih (c = '\n') 0
      rwa [show wsEmitted (c = '\n') 0 = 0 from rfl] at this

/-- `pbGo` preserves newline protection: collapsing a run keeps both
remaining newlines mutually protected, and an isolated newline keeps its
`"- "` or newline successor. -/
theorem pbPres_nlr : ∀ (l : List Char) (k : Nat),
    nlrCheck (decide (1 ≤ k)) l = true → nlrCheck (decide (1 ≤ k)) (pbGo k l) = true := by
  intro l
  induction l with
  | nil => intro k _; rfl
  | cons c rest ih =>
    intro k h
    by_cases hc : c = '\n'
    · subst hc
      rw [nlrCheck, if_pos rfl, Bool.and_eq_true] at h
      by_cases h2 : 2 ≤ k
      · rw [pbGo, if_pos rfl, if_pos h2]
        have hs : decide (1 ≤ k) = true := by simp; omega
        rw [hs]
        have := ih k
        rw [hs] at this
        exact this (by simpa using h.2)
      · rw [pbGo, if_pos rfl, if_neg h2]
        rw [nlrCheck, if_pos rfl]
        have hrec := ih (k + 1)
        rw [show decide (1 ≤ k + 1) = true by simp] at hrec
        rw [hrec (by simpa using h.2)]
        by_cases hk1 : 1 ≤ k
        · simp [hk1]
        · have hk0 : k = 0 := by omega
          subst hk0
          have hkp : nlKeep rest = true := by simpa using h.1
          have hout : nlKeep (pbGo 1 rest) = true := by
            rcases nlKeep_true_cases rest hkp with ⟨r, rfl⟩ | ⟨r, rfl⟩
            · rw [pbGo, if_pos rfl, if_neg (by omega)]
              exact nlKeep_newline _
            · rw [pbGo, if_neg (by decide)]
              rw [pbGo, if_neg (by decide)]
              exact nlKeep_dash _
          rw [hout]
          simp
    · rw [pbGo, if_neg hc]
      rw [nlrCheck, if_neg hc] at h ⊢
      have := ih 0
      rw [show decide (1 ≤ 0) = false by simp] at this
      exact this h

/-- `wsGo` preserves newline protection: spaces are never removed entirely,
so `"\n\n"` pairs and `"\n- "` successors survive. -/
theorem wsPres_nlr : ∀ (l : List Char) (aNL : Bool) (k : Nat),
    nlrCheck (aNL && decide (k = 0)) l = true →
    nlrCheck (aNL && decide (k = 0)) (wsGo aNL k l) = true := by
  intro l
  induction l with
  | nil => intro aNL k _; rfl
  | cons c rest ih =>
    intro aNL k h
    by_cases hc : c = ' '
    · subst hc
      rw [nlrCheck, if_neg (by decide)] at h
      by_cases hk : k = 0
      · subst hk
        rw [wsGo, if_pos rfl, if_pos rfl]
        rw [nlrCheck, if_neg (by decide)]
        have := ih aNL 1
        rw [show (aNL && decide (1 = 0)) = false by simp] at this
        exact this h
      · by_cases hk1 : k = 1 ∧ aNL
        · rw [wsGo, if_pos rfl, if_neg hk, if_pos hk1]
          rw [nlrCheck, if_neg (by decide)]
          have := ih aNL 2
          rw [show (aNL && decide (2 = 0)) = false by simp] at this
          exact this h
        · rw [wsGo, if_pos rfl, if_neg hk, if_neg hk1]
          have hs : (aNL && decide (k = 0)) = false := by simp [hk]
          rw [hs]
          have := ih aNL k
          rw [hs] at this
          exact this h
    · rw [wsGo, if_neg hc]
      by_cases hn : c = '\n'
      · subst hn
        rw [nlrCheck, if_pos rfl, Bool.and_eq_true] at h ⊢
        refine ⟨?_, ?_⟩
        · rcases Bool.or_eq_true_iff.mp h.1 with h1 | h1
          · rw [h1]; rfl
          · have hout : nlKeep (wsGo ('\n' = '\n') 0 rest) = true := by
              rcases nlKeep_true_cases rest h1 with ⟨r, rfl⟩ | ⟨r, rfl⟩
              · rw [wsGo, if_neg (by decide)]
                exact nlKeep_newline _
              · rw [wsGo, if_neg (by decide)]
                rw [wsGo, if_pos rfl, if_pos rfl]
                exact nlKeep_dash _
            rw [hout]
            simp
        · have := ih ('\n' = '\n') 0
          rw [show ((('\n' = '\n') : Bool) && decide (0 = 0)) = true by simp] at this
          exact this (by simpa using h.2)
      · rw [nlrCheck, if_neg hn] at h ⊢
        have := ih (c = '\n') 0
        rw [show (((c = '\n') : Bool) && decide (0 = 0)) = false by simp [hn]] at this
        exact this h

/-- `wsGo` preserves the no-triple-newline property: space runs are never
removed entirely, so no new newline adjacency is created. -/
theorem wsPres_pb : ∀ (l : List Char) (aNL : Bool) (k pk : Nat),
    (1 ≤ k → pk = 0) → pbCheck pk l = true → pbCheck pk (wsGo aNL k l) = true := by
  intro l
  induction l with
  | nil => intro aNL k pk _ _; rfl
  | cons c rest ih =>
    intro aNL k pk hkpk h
    by_cases hc : c = ' '
    · subst hc
      rw [pbCheck, if_neg (by decide)] at h
      by_cases hk : k = 0
      · subst hk
        rw [wsGo, if_pos rfl, if_pos rfl]
        rw [pbCheck, if_neg (by decide)]
        exact ih aNL 1 0 (fun _ => rfl) h
      · by_cases hk1 : k = 1 ∧ aNL
        · rw [wsGo, if_pos rfl, if_neg hk, if_pos hk1]
          have hpk : pk = 0 := hkpk (by omega)
          subst hpk
          rw [pbCheck, if_neg (by decide)]
          exact ih aNL 2 0 (fun _ => rfl) h
        · rw [wsGo, if_pos rfl, if_neg hk, if_neg hk1]
          have hpk : pk = 0 := hkpk (by omega)
          subst hpk
          exact ih aNL k 0 (fun _ => rfl) h
    · rw [wsGo, if_neg hc]
      by_cases hn : c = '\n'
      · subst hn
        rw [pbCheck, if_pos rfl, Bool.and_eq_true] at h ⊢
        exact ⟨h.1, ih ('\n' = '\n') 0 (pk + 1) (by omega) h.2⟩
      · rw [pbCheck, if_neg hn] at h ⊢
        exact ih (c = '\n') 0 0 (by omega) h

/-- Characters of a replace pass come from the input. -/
theorem replaceEmptyGo_sub (pat : List Char) :
    ∀ (fuel : Nat) (l : List Char), ∀ c ∈ replaceEmptyGo pat fuel l, c ∈ l := by
  intro fuel
  induction fuel with
  | zero => intro l c hc; exact hc
  | succ f ih =>
    intro l c hc
    cases l with
    | nil => cases hc
    | cons a rest =>
      rw [replaceEmptyGo] at hc
      by_cases hs : startsWithB pat (a :: rest) = true
      · rw [if_pos hs] at hc
        exact List.drop_subset _ _ (ih _ c hc)
      · rw [if_neg hs] at hc
        rcases List.mem_cons.mp hc with rfl | hc
        · exact List.mem_cons_self _ _
        · exact List.mem_cons_of_mem _ (ih rest c hc)

/-- Characters of `lineEndings` output: a non-carriage-return input
character or a fresh `'\n'` (strong induction on length, since the `\r\n`
branch skips two characters). -/
theorem lineEndings_chars_bounded : ∀ (n : Nat) (l : List Char), l.length ≤ n →
    ∀ c ∈ lineEndings l, (c ∈ l ∧ c ≠ '\r') ∨ c = '\n' := by
  intro n
  induction n with
  | zero =>
    intro l hl c hc
    rw [List.length_eq_zero.mp (Nat.le_zero.mp hl)] at hc
    cases hc
  | succ m ih =>
    intro l hl c hc
    match l with
    | [] => cases hc
    | [a] =>
      rw [lineEndings] at hc
      by_cases ha : a = '\r'
      · rw [if_pos ha] at hc
        exact Or.inr (List.mem_singleton.mp hc)
      · rw [if_neg ha] at hc
        rcases List.mem_singleton.mp hc with rfl
        exact Or.inl ⟨List.mem_singleton.mpr rfl, ha⟩
    | a :: d :: rest2 =>
      rw [lineEndings] at hc
      have hlen2 : rest2.length ≤ m := by
        simp only [List.length_cons] at hl
        omega
      have hlen1 : (d :: rest2).length ≤ m := by
        simp only [List.length_cons] at hl ⊢
        omega
      by_cases ha : a = '\r'
      · rw [if_pos ha] at hc
        by_cases hd : d = '\n'
        · rw [if_pos hd] at hc
          rcases List.mem_cons.mp hc with rfl | hc
          · exact Or.inr rfl
          · rcases ih rest2 hlen2 c hc with ⟨h1, h2⟩ | h1
            · exact Or.inl ⟨List.mem_cons_of_mem a (List.mem_cons_of_mem d h1), h2⟩
            · exact Or.inr h1
        · rw [if_neg hd] at hc
          rcases List.mem_cons.mp hc with rfl | hc
          · exact Or.inr rfl
          · rcases ih (d :: rest2) hlen1 c hc with ⟨h1, h2⟩ | h1
            · exact Or.inl ⟨List.mem_cons_of_mem a h1, h2⟩
            · exact Or.inr h1
      · rw [if_neg ha] at hc
        rcases List.mem_cons.mp hc with rfl | hc
        · exact Or.inl ⟨List.mem_cons_self _ _, ha⟩
        · rcases ih (d :: rest2) hlen1 c hc with ⟨h1, h2⟩ | h1
          · exact Or.inl ⟨List.mem_cons_of_mem a h1, h2⟩
          · exact Or.inr h1

/-- Characters of `lineEndings` output come from the input or are `'\n'`. -/
theorem lineEndings_mem (l : List Char) : ∀ c ∈ lineEndings l, c ∈ l ∨ c = '\n' := by
  intro c hc
  rcases lineEndings_chars_bounded l.length l (le_refl _) c hc with ⟨h1, _⟩ | h1
  · exact Or.inl h1
  · exact Or.inr h1

/-- `lineEndings` output is carriage-return free. -/
theorem lineEndings_no_cr (l : List Char) : ∀ c ∈ lineEndings l, c ≠ '\r' := by
  intro c hc
  rcases lineEndings_chars_bounded l.length l (le_refl _) c hc with ⟨_, h2⟩ | h1
  · exact h2
  · rw [h1]; decide

/-- Characters of `nlrGo` output come from the input or are fresh spaces. -/
theorem nlrGo_mem : ∀ (l : List Char) (pNL : Bool), ∀ c ∈ nlrGo pNL l, c ∈ l ∨ c = ' ' := by
  intro l
  induction l with
  | nil => intro pNL c hc; cases hc
  | cons a rest ih =>
    intro pNL c hc
    by_cases ha : a = '\n'
    · subst ha
      rw [nlrGo, if_pos rfl] at hc
      by_cases hp : pNL = true
      · rw [if_pos hp] at hc
        rcases List.mem_cons.mp hc with rfl | hc
        · exact Or.inl (List.mem_cons_self _ _)
        · rcases ih true c hc with h1 | h1
          · exact Or.inl (List.mem_cons_of_mem _ h1)
          · exact Or.inr h1
      · rw [if_neg hp] at hc
        by_cases hk : nlKeep rest = true
        · rw [if_pos hk] at hc
          rcases List.mem_cons.mp hc with rfl | hc
          · exact Or.inl (List.mem_cons_self _ _)
          · rcases ih true c hc with h1 | h1
            · exact Or.inl (List.mem_cons_of_mem _ h1)
            · exact Or.inr h1
        · rw [if_neg hk] at hc
          rcases List.mem_cons.mp hc with rfl | hc
          · exact Or.inr rfl
          · rcases ih true c hc with h1 | h1
            · exact Or.inl (List.mem_cons_of_mem _ h1)
            · exact Or.inr h1
    · rw [nlrGo, if_neg ha] at hc
      rcases List.mem_cons.mp hc with rfl | hc
      · exact Or.inl (List.mem_cons_self _ _)
      · rcases ih false c hc with h1 | h1
        · exact Or.inl (List.mem_cons_of_mem _ h1)
        · exact Or.inr h1

/-- Characters of `pbGo` output come from the input. -/
theorem pbGo_mem : ∀ (l : List Char) (k : Nat), ∀ c ∈ pbGo k l, c ∈ l := by
  intro l
  induction l with
  | nil => intro k c hc; cases hc
  | cons a rest ih =>
    intro k c hc
    by_cases ha : a = '\n'
    · subst ha
      rw [pbGo, if_pos rfl] at hc
      by_cases h2 : 2 ≤ k
      · rw [if_pos h2] at hc
        exact List.mem_cons_of_mem _ (ih k c hc)
      · rw [if_neg h2] at hc
        rcases List.mem_cons.mp hc with rfl | hc
        · exact List.mem_cons_self _ _
        · exact List.mem_cons_of_mem _ (ih (k + 1) c hc)
    · rw [pbGo, if_neg ha] at hc
      rcases List.mem_cons.mp hc with rfl | hc
      · exact List.mem_cons_self _ _
      · exact List.mem_cons_of_mem _ (ih 0 c hc)

/-- Characters of `wsGo` output come from the input. -/
theorem wsGo_mem : ∀ (l : List Char) (aNL : Bool) (k : Nat), ∀ c ∈ wsGo aNL k l, c ∈ l := by
  intro l
  induction l with
  | nil => intro aNL k c hc; cases hc
  | cons a rest ih =>
    intro aNL k c hc
    by_cases ha : a = ' '
    · subst ha
      rw [wsGo, if_pos rfl] at hc
      by_cases hk : k = 0
      · rw [if_pos hk] at hc
        rcases List.mem_cons.mp hc with rfl | hc
        · exact List.mem_cons_self _ _
        · exact List.mem_cons_of_mem _ (ih aNL 1 c hc)
      · rw [if_neg hk] at hc
        by_cases hk1 : k = 1 ∧ aNL
        · rw [if_pos hk1] at hc
          rcases List.mem_cons.mp hc with rfl | hc
          · exact List.mem_cons_self _ _
          · exact List.mem_cons_of_mem _ (ih aNL 2 c hc)
        · rw [if_neg hk1] at hc
          exact List.mem_cons_of_mem _ (ih aNL k c hc)
    · rw [wsGo, if_neg ha] at hc
      rcases List.mem_cons.mp hc with rfl | hc
      · exact List.mem_cons_self _ _
      · exact List.mem_cons_of_mem _ (ih (a = '\n') 0 c hc)

/-- A pattern starting with `'['` cannot occur in a `'['`-free list. -/
theorem hasSubstrL_false_of_no_bracket (ps : List Char) :
    ∀ (l : List Char), '[' ∉ l → hasSubstrL ('[' :: ps) l = false := by
  intro l
  induction l with
  | nil => intro _; rfl
  | cons c rest ih =>
    intro h
    have hc : c ≠ '[' := fun hcon => h (hcon ▸ List.mem_cons_self c rest)
    show (startsWithB ('[' :: ps) (c :: rest) || hasSubstrL ('[' :: ps) rest) = false
    rw [ih (fun hcon => h (List.mem_cons_of_mem c hcon))]
    show ((decide ('[' = c) && startsWithB ps rest) || false) = false
    rw [decide_eq_false (fun hcon => hc hcon.symm)]
    rfl

/-! ## Claim C4: idempotence of the normalizer -/

/-- C4 (counterexample): the normalizer is not idempotent.  Removing `[]`
from `"[[]]"` splices the remaining brackets into a new `"[]"` occurrence,
which only a second application removes:
`cleanup("[[]]") = "[]"` but `cleanup("[]") = ""`. -/
theorem c4_not_idempotent :
    cleanupPlaintext (cleanupPlaintext "[[]]") ≠ cleanupPlaintext "[[]]" := by
  decide

/-- C4 (amended): normalization is idempotent on every input without the
artifact-introducing bracket character `'['` (so the two artifact removals
cannot interact).  The four whitespace passes form an idempotent pipeline:
their output is carriage-return free, every surviving newline stays
protected, no newline run exceeds two, and space runs are in collapsed
form — so a second application changes nothing. -/
theorem c4_idempotent_on_bracket_free (s : String) (h : ∀ c ∈ s.data, c ≠ '[') :
    cleanupPlaintext (cleanupPlaintext s) = cleanupPlaintext s := by
  have hbr : '[' ∉ s.data := fun hc => h '[' hc rfl
  have hri : removeImage s.data = s.data := by
    apply replaceEmptyGo_id
    rw [show "[image]".data = '[' :: "image]".data from rfl]
    exact hasSubstrL_false_of_no_bracket _ s.data hbr
  have hrb : removeBrackets s.data = s.data := by
    apply replaceEmptyGo_id
    rw [show "[]".data = '[' :: "]".data from rfl]
    exact hasSubstrL_false_of_no_bracket _ s.data hbr
  set x1 := lineEndings s.data with hx1
  set x2 := nlrGo false x1 with hx2
  set x3 := pbGo 0 x2 with hx3
  set y := wsGo false 0 x3 with hy
  have hcleanL : cleanupL s.data = y := by
    unfold cleanupL
    rw [hri, hrb, hy, hx3, hx2, hx1]
  have hybr : '[' ∉ y := by
    intro hc
    have h3 := wsGo_mem x3 false 0 '[' hc
    have h2m := pbGo_mem x2 0 '[' h3
    rcases nlrGo_mem x1 false '[' h2m with h1 | h1
    · rcases lineEndings_mem s.data '[' h1 with h0 | h0
      · exact hbr h0
      · exact absurd h0 (by decide)
    · exact absurd h1 (by decide)
  have hycr : ∀ c ∈ y, c ≠ '\r' := by
    intro c hc
    have h3 := wsGo_mem x3 false 0 c hc
    have h2m := pbGo_mem x2 0 c h3
    rcases nlrGo_mem x1 false c h2m with h1 | h1
    · exact lineEndings_no_cr s.data c h1
    · rw [h1]; decide
  have hnlr_y : nlrCheck false y = true := by
    have s1 : nlrCheck false x2 = true := nlrOut x1 false false (fun _ => Or.inl rfl)
    have s2 : nlrCheck false x3 = true := by
      have hp := pbPres_nlr x2 0
      rw [show decide (1 ≤ 0) = false from rfl] at hp
      exact hp s1
    have hw := wsPres_nlr x3 false 0
    rw [show ((false : Bool) && decide (0 = 0)) = false from rfl] at hw
    exact hw s2
  have hpb_y : pbCheck 0 y = true := by
    have s3 : pbCheck 0 x3 = true := by
      have hp := pbOut x2 0
      rwa [show min 0 2 = 0 from rfl] at hp
    exact wsPres_pb x3 false 0 0 (fun _ => rfl) s3
  have hws_y : wsCheck false 0 y = true := by
    have hw := wsOut x3 false 0
    rwa [show wsEmitted false 0 = 0 from rfl] at hw
  have h2ri : removeImage y = y := by
    apply replaceEmptyGo_id
    rw [show "[image]".data = '[' :: "image]".data from rfl]
    exact hasSubstrL_false_of_no_bracket _ y hybr
  have h2rb : removeBrackets y = y := by
    apply replaceEmptyGo_id
    rw [show "[]".data = '[' :: "]".data from rfl]
    exact hasSubstrL_false_of_no_bracket _ y hybr
  have h2id : cleanupL y = y := by
    unfold cleanupL
    rw [h2ri, h2rb, lineEndings_id y hycr, nlrCheck_id y false hnlr_y,
      pbCheck_id y 0 hpb_y, wsCheck_id y false 0 hws_y]
  show (⟨cleanupL (cleanupPlaintext s).data⟩ : String) = (⟨cleanupL s.data⟩ : String)
  rw [show (cleanupPlaintext s).data = y from hcleanL, h2id, hcleanL]

/-- C4 amended witness: a bracket-free string with soft wraps, a paragraph
break and doubled spaces is normalized idempotently. -/
theorem c4_idempotent_on_bracket_free_witness :
    cleanupPlaintext (cleanupPlaintext "a\nb\n\n  c  d\r\ne") =
      cleanupPlaintext "a\nb\n\n  c  d\r\ne" :=
  c4_idempotent_on_bracket_free "a\nb\n\n  c  d\r\ne" (by decide)

/-! ## Claim C5: leading content before the first heading -/

/-- C5 (counterexample): body content preceding the first matched heading is
dropped, not emitted as a headingless segment.  With TOC entry `"Heading"`
and body `"intro\n\nHeading\n\nbody"` the only emitted segment is
`"Heading [SEP] body"`; the leading paragraph `"intro"` appears nowhere. -/
theorem c5_leading_content_dropped :
    splitTextS "- Heading" "intro\n\nHeading\n\nbody" = ["Heading [SEP] body"] ∧
    hasSubstrL "intro".data "Heading [SEP] body".data = false := by
  decide

/-! ## Claim C6: artifact removal -/

/-- C6 (counterexample): the normalizer does not remove `[figure]` or
`[table]` — `cleanup_plaintext` only calls
`text.replace("[image]", "").replace("[]", "")`, so both tokens survive
verbatim, contradicting the claim that all four artifact tokens are
removed. -/
theorem c6_figure_table_survive :
    cleanupPlaintext "[figure]" = "[figure]" ∧
    cleanupPlaintext "[table]" = "[table]" := by
  decide

/-! ## Claim C7: per-file failure containment -/

/-- C7: when the conversion collaborator raises, `read_doc` catches the
exception and returns `("", "")`, and `chunk_single_file` produces an empty
chunk list for that file: the empty text flows through cleanup, produces no
paragraphs and no chunks, and no failure escapes (the embedding is total and
returns `some []` for every tokenizer, budget, fuel and filename). -/
theorem c7_conversion_failure_yields_no_chunks :
    ∀ (tc : String → Nat) (maxT fuel : Nat) (filename : String) (e : Unit),
      chunkSingleFileFuel tc maxT fuel filename (.error e) = some [] := by
  intro tc maxT fuel filename e
  rfl

/-! ## Claim C8: heading pool exhaustion -/

/-- C8 (counterexample): a heading string that occurs twice in the TOC is
matched twice in the body walk.  With TOC `"- A\n- A"` the candidate pool is
`["A", "A"]`; both body occurrences of the paragraph `"A"` are consumed as
headings (the second is not treated as body content), producing two chunks
with section `"A"` — contradicting the claim that no single TOC-derived
heading string is matched more than once. -/
theorem c8_duplicate_toc_matches_twice :
    splitTextS "- A\n- A" "A\n\nx\n\nA\n\ny" = ["A [SEP] x", "A [SEP] y"] ∧
    sectionOfS "A [SEP] x" = "A" ∧ sectionOfS "A [SEP] y" = "A" ∧
    splitTextS "- A\n- A" "A\n\nx\n\nA\n\ny" ≠ ["A [SEP] x A y"] := by
  decide

/-! ## Claim C9: chunk identifier derivation -/

/-- C9 (counterexample): `doc_id` is not the bare filename stem with spaces
replaced — it is `f"{filename}_{chunk_number}"`, with the 1-based chunk
index embedded and spaces kept.  For a file with stem `"my doc"` and one
chunk, the emitted `doc_id` is `"my doc_1"`, which is neither the stem
`"my doc"` nor a space-replaced `"my_doc"`. -/
theorem c9_doc_id_embeds_index :
    chunkSingleFileFuel tcLen 300 2 "my doc" (.ok "hello") =
      some [⟨⟨"my doc_1", 1, 5, "No Heading"⟩, "hello"⟩] ∧
    "my doc_1" ≠ "my doc" ∧ "my doc_1" ≠ "my_doc" := by
  decide

/-! ## Substring helper lemmas for the segmenter claims -/

/-- A list starts with itself followed by anything. -/
theorem startsWithB_self_append : ∀ (pat rest : List Char), startsWithB pat (pat ++ rest) = true := by
  intro pat rest
  induction pat with
  | nil => rfl
  | cons p ps ih => simp [startsWithB, ih]

/-- A pattern occurs in itself followed by anything. -/
theorem hasSubstrL_self_append (pat rest : List Char) : hasSubstrL pat (pat ++ rest) = true := by
  cases pat with
  | nil =>
    cases rest with
    | nil => rfl
    | cons c r => simp [hasSubstrL, startsWithB]
  | cons p ps => simp [hasSubstrL, startsWithB, startsWithB_self_append]

/-- Occurrence is preserved under prepending. -/
theorem hasSubstrL_append_left (pat : List Char) :
    ∀ (l r : List Char), hasSubstrL pat r = true → hasSubstrL pat (l ++ r) = true := by
  intro l
  induction l with
  | nil => intro r h; exact h
  | cons c l' ih =>
    intro r h
    show (startsWithB pat (c :: (l' ++ r)) || hasSubstrL pat (l' ++ r)) = true
    rw [ih r h, Bool.or_true]

/-- Every chunk assembled with a heading contains the `[SEP]` marker. -/
theorem mkChunk_hasSep (h : String) (content : List String) :
    hasSubstrL "[SEP]".data (mkChunk h content).data = true := by
  unfold mkChunk
  rw [String.data_append, String.data_append, List.append_assoc]
  apply hasSubstrL_append_left
  have h7 : " [SEP] ".data = [' '] ++ "[SEP]".data ++ [' '] := by decide
  rw [h7, List.append_assoc, List.append_assoc]
  apply hasSubstrL_append_left
  rw [← List.append_assoc]
  exact hasSubstrL_self_append "[SEP]".data ([' '] ++ (joinSp content).data)

/-! ## Segmenter loop invariants (claims C5 and C8) -/

/-- The paragraph walk emits at most one chunk without a `[SEP]` marker,
provided all previously accumulated chunks carry one. -/
theorem splitLoop_count_le_one :
    ∀ (ps hs curC chunks : List String) (curH : String),
      (∀ c ∈ chunks, hasSubstrL "[SEP]".data c.data = true) →
      List.countP (fun c => !(hasSubstrL "[SEP]".data c.data))
        (splitLoop hs curH curC chunks ps) ≤ 1 := by
  intro ps
  induction ps with
  | nil =>
    intro hs curC chunks curH hsep
    have hzero : List.countP (fun c => !(hasSubstrL "[SEP]".data c.data)) chunks = 0 :=
      List.countP_eq_zero.mpr (fun a ha => by simp [hsep a ha])
    simp only [splitLoop]
    by_cases h1 : curH ≠ "" ∧ curC ≠ []
    · rw [if_pos h1, List.countP_append, hzero]
      have hms := mkChunk_hasSep curH curC
      simp [List.countP_cons, hms]
    · rw [if_neg h1]
      by_cases h2 : curC ≠ [] ∧ curH = ""
      · rw [if_pos h2, List.countP_append, hzero]
        have := List.countP_le_length (fun c => !(hasSubstrL "[SEP]".data c.data))
          (l := [joinSp curC])
        simpa using this
      · rw [if_neg h2]
        simp [hzero]
  | cons p rest ih =>
    intro hs curC chunks curH hsep
    simp only [splitLoop]
    by_cases h0 : pyStripS p = ""
    · rw [if_pos h0]
      exact ih hs curC chunks curH hsep
    · rw [if_neg h0]
      by_cases h1 : hs ≠ [] ∧ pyStripS p ∈ hs
      · rw [if_pos h1]
        apply ih
        intro c hc
        by_cases h2 : curH ≠ "" ∧ curC ≠ []
        · rw [if_pos h2] at hc
          rcases List.mem_append.mp hc with hc | hc
          · exact hsep c hc
          · rcases List.mem_singleton.mp hc with rfl
            exact mkChunk_hasSep curH curC
        · rw [if_neg h2] at hc
          exact hsep c hc
      · rw [if_neg h1]
        exact ih hs (curC ++ [pyStripS p]) chunks curH hsep

/-- Once a heading has been matched (or is bound to be matched later), no
headingless chunk is ever emitted. -/
theorem splitLoop_matched_zero :
    ∀ (ps hs curC chunks : List String) (curH : String),
      (∀ c ∈ chunks, hasSubstrL "[SEP]".data c.data = true) →
      (curH ≠ "" ∨ ∃ p ∈ ps, pyStripS p ≠ "" ∧ pyStripS p ∈ hs) →
      List.countP (fun c => !(hasSubstrL "[SEP]".data c.data))
        (splitLoop hs curH curC chunks ps) = 0 := by
  intro ps
  induction ps with
  | nil =>
    intro hs curC chunks curH hsep hd
    rcases hd with hd | ⟨p, hp, _⟩
    swap
    · cases hp
    have hzero : List.countP (fun c => !(hasSubstrL "[SEP]".data c.data)) chunks = 0 :=
      List.countP_eq_zero.mpr (fun a ha => by simp [hsep a ha])
    simp only [splitLoop]
    by_cases h1 : curH ≠ "" ∧ curC ≠ []
    · rw [if_pos h1, List.countP_append, hzero]
      have hms := mkChunk_hasSep curH curC
      simp [List.countP_cons, hms]
    · rw [if_neg h1]
      have h2 : ¬(curC ≠ [] ∧ curH = "") := fun hc => hd hc.2
      rw [if_neg h2]
      simp [hzero]
  | cons p rest ih =>
    intro hs curC chunks curH hsep hd
    simp only [splitLoop]
    by_cases h0 : pyStripS p = ""
    · rw [if_pos h0]
      refine ih hs curC chunks curH hsep ?_
      rcases hd with hd | ⟨q, hq, hq1, hq2⟩
      · exact Or.inl hd
      · rcases List.mem_cons.mp hq with rfl | hq
        · exact absurd h0 hq1
        · exact Or.inr ⟨q, hq, hq1, hq2⟩
    · rw [if_neg h0]
      by_cases h1 : hs ≠ [] ∧ pyStripS p ∈ hs
      · rw [if_pos h1]
        refine ih _ _ _ _ ?_ (Or.inl h0)
        intro c hc
        by_cases h2 : curH ≠ "" ∧ curC ≠ []
        · rw [if_pos h2] at hc
          rcases List.mem_append.mp hc with hc | hc
          · exact hsep c hc
          · rcases List.mem_singleton.mp hc with rfl
            exact mkChunk_hasSep curH curC
        · rw [if_neg h2] at hc
          exact hsep c hc
      · rw [if_neg h1]
        refine ih hs (curC ++ [pyStripS p]) chunks curH hsep ?_
        rcases hd with hd | ⟨q, hq, hq1, hq2⟩
        · exact Or.inl hd
        · rcases List.mem_cons.mp hq with rfl | hq
          · exact absurd (⟨List.ne_nil_of_mem hq2, hq2⟩ : hs ≠ [] ∧ pyStripS q ∈ hs) h1
          · exact Or.inr ⟨q, hq, hq1, hq2⟩

/-- If a headingless chunk is emitted, it is the only emitted chunk.
The invariant `curH = "" → chunks = []` holds initially and is preserved:
chunks are only appended at a match, which also sets a non-empty heading. -/
theorem splitLoop_headingless_singleton :
    ∀ (ps hs curC chunks : List String) (curH : String),
      (∀ c ∈ chunks, hasSubstrL "[SEP]".data c.data = true) →
      (curH = "" → chunks = []) →
      0 < List.countP (fun c => !(hasSubstrL "[SEP]".data c.data))
        (splitLoop hs curH curC chunks ps) →
      (splitLoop hs curH curC chunks ps).length = 1 := by
  intro ps
  induction ps with
  | nil =>
    intro hs curC chunks curH hsep hinv hpos
    have hzero : List.countP (fun c => !(hasSubstrL "[SEP]".data c.data)) chunks = 0 :=
      List.countP_eq_zero.mpr (fun a ha => by simp [hsep a ha])
    simp only [splitLoop] at hpos ⊢
    by_cases h1 : curH ≠ "" ∧ curC ≠ []
    · rw [if_pos h1, List.countP_append, hzero] at hpos
      have hms := mkChunk_hasSep curH curC
      simp [List.countP_cons, hms] at hpos
    · rw [if_neg h1] at hpos ⊢
      by_cases h2 : curC ≠ [] ∧ curH = ""
      · rw [if_pos h2]
        rw [hinv h2.2]
        rfl
      · rw [if_neg h2] at hpos
        rw [List.append_nil, hzero] at hpos
        cases hpos
  | cons p rest ih =>
    intro hs curC chunks curH hsep hinv hpos
    simp only [splitLoop] at hpos ⊢
    by_cases h0 : pyStripS p = ""
    · rw [if_pos h0] at hpos ⊢
      exact ih hs curC chunks curH hsep hinv hpos
    · rw [if_neg h0] at hpos ⊢
      by_cases h1 : hs ≠ [] ∧ pyStripS p ∈ hs
      · rw [if_pos h1] at hpos ⊢
        refine ih _ _ _ _ ?_ (fun hcon => absurd hcon h0) hpos
        intro c hc
        by_cases h2 : curH ≠ "" ∧ curC ≠ []
        · rw [if_pos h2] at hc
          rcases List.mem_append.mp hc with hc | hc
          · exact hsep c hc
          · rcases List.mem_singleton.mp hc with rfl
            exact mkChunk_hasSep curH curC
        · rw [if_neg h2] at hc
          exact hsep c hc
      · rw [if_neg h1] at hpos ⊢
        exact ih hs (curC ++ [pyStripS p]) chunks curH hsep hinv hpos

/-! ## Claim C5 (amended) -/

/-- C5 (amended): at most one headingless segment (a chunk without a `[SEP]`
marker) is ever emitted; none is emitted once any paragraph matches a
TOC-derived heading (so leading content before the first matched heading is
not preserved in a headingless segment — it is dropped, cf. the
counterexample); and when a headingless segment is emitted it is the only
emitted chunk (the entire accumulated body). -/
theorem c5_amended (toc text : String) :
    List.countP (fun c => !(hasSubstrL "[SEP]".data c.data)) (splitTextS toc text) ≤ 1 ∧
    ((∃ p ∈ (splitParasL text.data).map (fun l => (⟨l⟩ : String)),
        pyStripS p ≠ "" ∧ pyStripS p ∈ parseHeadings toc) →
      List.countP (fun c => !(hasSubstrL "[SEP]".data c.data)) (splitTextS toc text) = 0) ∧
    (0 < List.countP (fun c => !(hasSubstrL "[SEP]".data c.data)) (splitTextS toc text) →
      (splitTextS toc text).length = 1) := by
  refine ⟨?_, ?_, ?_⟩
  · exact splitLoop_count_le_one _ (parseHeadings toc) [] [] "" (by intro c hc; cases hc)
  · intro hex
    exact splitLoop_matched_zero _ (parseHeadings toc) [] [] ""
      (by intro c hc; cases hc) (Or.inr hex)
  · intro hpos
    exact splitLoop_headingless_singleton _ (parseHeadings toc) [] [] ""
      (by intro c hc; cases hc) (fun _ => rfl) hpos

/-- C5 amended witness: with TOC `"- A"` and a matching body paragraph no
headingless chunk is emitted; with an empty TOC the whole body is one
headingless chunk. -/
theorem c5_amended_witness :
    List.countP (fun c => !(hasSubstrL "[SEP]".data c.data)) (splitTextS "- A" "A\n\nb") = 0 ∧
    (splitTextS "" "b").length = 1 :=
  ⟨(c5_amended "- A" "A\n\nb").2.1 (by decide), (c5_amended "" "b").2.2 (by decide)⟩

/-! ## Claim C6 (amended) -/

/-- C6 (amended): the artifact step removes `[image]` and then `[]` only —
a string without occurrences of a handled token is left unchanged by the
corresponding pass, occurrences that are present are removed (concretely on
a sample), and `[figure]`/`[table]` survive normalization verbatim. -/
theorem c6_amended :
    (∀ s : String, hasSubstrL "[image]".data s.data = false → removeImage s.data = s.data) ∧
    (∀ s : String, hasSubstrL "[]".data s.data = false → removeBrackets s.data = s.data) ∧
    removeBrackets (removeImage "a [image] b [] c".data) = "a  b  c".data ∧
    cleanupPlaintext "x [figure] y [table] z" = "x [figure] y [table] z" := by
  refine ⟨?_, ?_, by decide, by decide⟩
  · intro s h
    exact replaceEmptyGo_id "[image]".data s.data.length s.data h
  · intro s h
    exact replaceEmptyGo_id "[]".data s.data.length s.data h

/-- C6 amended witness: concrete instantiations of the identity parts. -/
theorem c6_amended_witness :
    removeImage "abc".data = "abc".data ∧ removeBrackets "xyz".data = "xyz".data :=
  ⟨c6_amended.1 "abc" (by decide), c6_amended.2.1 "xyz" (by decide)⟩

/-! ## Claim C8 (amended): heading multiplicity bound -/

/-- A pattern avoiding the space character that starts a list continuing past
a space also starts the part before the space. -/
theorem startsWithB_space_split :
    ∀ (pat : List Char), ' ' ∉ pat →
      ∀ (A B : List Char), startsWithB pat (A ++ ' ' :: B) = true →
        startsWithB pat A = true := by
  intro pat
  induction pat with
  | nil => intro _ A B _; cases A <;> rfl
  | cons p ps ih =>
    intro hsp A B hst
    cases A with
    | nil =>
      simp only [List.nil_append, startsWithB, Bool.and_eq_true, decide_eq_true_eq] at hst
      exact absurd (by rw [← hst.1]; exact List.mem_cons_self p ps) hsp
    | cons a A2 =>
      simp only [List.cons_append, startsWithB, Bool.and_eq_true] at hst ⊢
      exact ⟨hst.1, ih (fun hm => hsp (List.mem_cons_of_mem p hm)) A2 B hst.2⟩

/-- A space-free pattern occurring nowhere in `x` nor in `y` occurs nowhere
in `x ++ ' ' :: y`: any occurrence would have to lie on one side of the
space it cannot contain. -/
theorem hasSubstrL_append_space (pat : List Char) (hne : pat ≠ []) (hsp : ' ' ∉ pat) :
    ∀ (x y : List Char), hasSubstrL pat x = false → hasSubstrL pat y = false →
      hasSubstrL pat (x ++ ' ' :: y) = false := by
  intro x
  induction x with
  | nil =>
    intro y _ hy
    cases pat with
    | nil => exact absurd rfl hne
    | cons p ps =>
      have hp : p ≠ ' ' := fun hm => hsp (by rw [← hm]; exact List.mem_cons_self p ps)
      show (startsWithB (p :: ps) (' ' :: y) || hasSubstrL (p :: ps) y) = false
      rw [hy, Bool.or_false]
      show (decide (p = ' ') && startsWithB ps y) = false
      simp [hp]
  | cons c x2 ih =>
    intro y hx hy
    simp only [hasSubstrL, Bool.or_eq_false_iff] at hx
    show (startsWithB pat (c :: (x2 ++ ' ' :: y)) || hasSubstrL pat (x2 ++ ' ' :: y)) = false
    rw [ih y hx.2 hy, Bool.or_false]
    cases hst : startsWithB pat (c :: (x2 ++ ' ' :: y)) with
    | false => rfl
    | true =>
      have hpre : startsWithB pat (c :: x2) = true :=
        startsWithB_space_split pat hsp (c :: x2) y hst
      rw [hx.1] at hpre
      cases hpre

/-- `" ".join` of `[SEP]`-free parts is `[SEP]`-free. -/
theorem joinSp_sep_free :
    ∀ (l : List String), (∀ s ∈ l, hasSubstrL "[SEP]".data s.data = false) →
      hasSubstrL "[SEP]".data (joinSp l).data = false := by
  intro l
  induction l with
  | nil => intro _; decide
  | cons s rest ih =>
    intro hall
    cases rest with
    | nil => exact hall s (List.mem_cons_self s [])
    | cons t rest2 =>
      show hasSubstrL "[SEP]".data (s ++ " " ++ joinSp (t :: rest2)).data = false
      rw [String.data_append, String.data_append, List.append_assoc]
      exact hasSubstrL_append_space "[SEP]".data (by decide) (by decide) s.data
        (joinSp (t :: rest2)).data (hall s (List.mem_cons_self s (t :: rest2)))
        (ih (fun u hu => hall u (List.mem_cons_of_mem s hu)))

/-- `splitOnSEP` finds nothing in a `[SEP]`-free list. -/
theorem splitOnSEP_none :
    ∀ (l : List Char), hasSubstrL "[SEP]".data l = false → splitOnSEP l = none := by
  intro l
  induction l with
  | nil => intro _; rfl
  | cons c rest ih =>
    intro hsub
    simp only [hasSubstrL, Bool.or_eq_false_iff] at hsub
    simp [splitOnSEP, hsub.1, ih hsub.2]

/-- `splitOnSEP` at a `[SEP]`-free prefix followed by `" [SEP] "`: the split
point is the first (here the only) marker occurrence, the prefix keeps the
space before the marker and the suffix keeps the space after it. -/
theorem splitOnSEP_mk :
    ∀ (A : List Char), hasSubstrL "[SEP]".data A = false → ∀ (b : List Char),
      splitOnSEP (A ++ ' ' :: '[' :: 'S' :: 'E' :: 'P' :: ']' :: ' ' :: b) =
        some (A ++ [' '], ' ' :: b) := by
  intro A
  induction A with
  | nil =>
    intro _ b
    show splitOnSEP (' ' :: '[' :: 'S' :: 'E' :: 'P' :: ']' :: ' ' :: b) =
      some ([' '], ' ' :: b)
    simp [splitOnSEP, startsWithB, List.drop]
  | cons a A2 ih =>
    intro hA b
    simp only [hasSubstrL, Bool.or_eq_false_iff] at hA
    have hcond : startsWithB "[SEP]".data
        (a :: (A2 ++ ' ' :: '[' :: 'S' :: 'E' :: 'P' :: ']' :: ' ' :: b)) = false := by
      cases hst : startsWithB "[SEP]".data
          (a :: (A2 ++ ' ' :: '[' :: 'S' :: 'E' :: 'P' :: ']' :: ' ' :: b)) with
      | false => rfl
      | true =>
        have hpre : startsWithB "[SEP]".data (a :: A2) = true :=
          startsWithB_space_split "[SEP]".data (by decide) (a :: A2)
            ('[' :: 'S' :: 'E' :: 'P' :: ']' :: ' ' :: b) hst
        rw [hA.1] at hpre
        cases hpre
    show splitOnSEP (a :: (A2 ++ ' ' :: '[' :: 'S' :: 'E' :: 'P' :: ']' :: ' ' :: b)) = _
    simp only [splitOnSEP, hcond, Bool.false_eq_true, if_false, ih hA.2 b, Option.map_some']
    rfl

/-- Right trim absorbs a trailing space. -/
theorem trimRight_append_space (l : List Char) :
    trimRight isPySpace (l ++ [' ']) = trimRight isPySpace l := by
  unfold trimRight
  rw [List.reverse_append]
  show ((' ' :: l.reverse).dropWhile isPySpace).reverse = (l.reverse.dropWhile isPySpace).reverse
  rw [List.dropWhile_cons, if_pos (by decide : isPySpace ' ' = true)]

/-- Full strip absorbs a trailing space. -/
theorem trimAll_append_space (x : List Char) : trimAll (x ++ [' ']) = trimAll x := by
  unfold trimAll
  rw [List.dropWhile_append]
  by_cases he : (x.dropWhile isPySpace).isEmpty
  · rw [if_pos he, List.isEmpty_iff.mp he]
    rw [show ([' '] : List Char).dropWhile isPySpace = [] from by decide]
  · rw [if_neg he]
    exact trimRight_append_space (x.dropWhile isPySpace)

/-- Right trim is idempotent. -/
theorem trimRight_idem (p : Char → Bool) (m : List Char) :
    trimRight p (trimRight p m) = trimRight p m := by
  unfold trimRight
  rw [List.reverse_reverse, List.dropWhile_idempotent]

/-- Python `str.strip()` is idempotent. -/
theorem trimAll_idem (l : List Char) : trimAll (trimAll l) = trimAll l := by
  have hdw : (trimAll l).dropWhile isPySpace = trimAll l := by
    cases ht : trimAll l with
    | nil => rfl
    | cons c y =>
      rw [List.dropWhile_cons,
        if_neg (by rw [trimAll_head_not_space l c y ht]; exact Bool.false_ne_true)]
  have h1 : trimAll (trimAll l) = trimRight isPySpace ((trimAll l).dropWhile isPySpace) := rfl
  rw [h1, hdw]
  show trimRight isPySpace (trimRight isPySpace (l.dropWhile isPySpace)) =
    trimRight isPySpace (l.dropWhile isPySpace)
  exact trimRight_idem isPySpace (l.dropWhile isPySpace)

/-- Section label of a heading-assembled chunk: the heading itself, when the
heading is already stripped and `[SEP]`-free. -/
theorem sectionOfS_mkChunk (curH : String) (content : List String)
    (hsep : hasSubstrL "[SEP]".data curH.data = false)
    (htrim : trimAll curH.data = curH.data) :
    sectionOfS (mkChunk curH content) = curH := by
  unfold sectionOfS mkChunk
  have hdata : (curH ++ " [SEP] " ++ joinSp content).data =
      curH.data ++ ' ' :: '[' :: 'S' :: 'E' :: 'P' :: ']' :: ' ' :: (joinSp content).data := by
    rw [String.data_append, String.data_append, List.append_assoc]
    rfl
  rw [hdata, splitOnSEP_mk curH.data hsep (joinSp content).data]
  show (⟨trimAll (curH.data ++ [' '])⟩ : String) = curH
  rw [trimAll_append_space, htrim]

/-- Section label of a headingless chunk: the fallback `"No Heading"`, when
every joined part is `[SEP]`-free. -/
theorem sectionOfS_joinSp (content : List String)
    (hall : ∀ s ∈ content, hasSubstrL "[SEP]".data s.data = false) :
    sectionOfS (joinSp content) = "No Heading" := by
  unfold sectionOfS
  rw [splitOnSEP_none (joinSp content).data (joinSp_sep_free content hall)]

/-- Loop invariant for the multiplicity bound: during the paragraph walk the
number of chunks whose section label is `h` never exceeds the count among the
chunks already emitted, plus one for the current heading when it equals `h`,
plus the multiplicity of `h` in the remaining pool. -/
theorem splitLoop_section_count (h : String) :
    ∀ (ps hs curC chunks : List String) (curH : String),
      h ≠ "No Heading" →
      (∀ p ∈ ps, hasSubstrL "[SEP]".data (pyStripS p).data = false) →
      (∀ x ∈ hs, hasSubstrL "[SEP]".data x.data = false) →
      hasSubstrL "[SEP]".data curH.data = false →
      trimAll curH.data = curH.data →
      (∀ x ∈ curC, hasSubstrL "[SEP]".data x.data = false) →
      List.countP (fun c => decide (sectionOfS c = h)) (splitLoop hs curH curC chunks ps) ≤
        List.countP (fun c => decide (sectionOfS c = h)) chunks +
          (if curH = h then 1 else 0) + List.count h hs := by
  intro ps
  induction ps with
  | nil =>
    intro hs curC chunks curH hnh _ _ hsep htrim hcc
    simp only [splitLoop]
    by_cases h1 : curH ≠ "" ∧ curC ≠ []
    · rw [if_pos h1, List.countP_append]
      have hsec := sectionOfS_mkChunk curH curC hsep htrim
      have hone : List.countP (fun c => decide (sectionOfS c = h)) [mkChunk curH curC] =
          if curH = h then 1 else 0 := by
        rw [List.countP_cons, List.countP_nil, Nat.zero_add]
        simp only [hsec]
        simp
      rw [hone]
      exact Nat.le_add_right _ _
    · rw [if_neg h1]
      by_cases h2 : curC ≠ [] ∧ curH = ""
      · rw [if_pos h2, List.countP_append]
        have hsec := sectionOfS_joinSp curC hcc
        have hzero : List.countP (fun c => decide (sectionOfS c = h)) [joinSp curC] = 0 := by
          simp [List.countP_cons, hsec, Ne.symm hnh]
        rw [hzero]
        omega
      · rw [if_neg h2, List.append_nil]
        omega
  | cons p rest ih =>
    intro hs curC chunks curH hnh hps hhs hsep htrim hcc
    simp only [splitLoop]
    by_cases h0 : pyStripS p = ""
    · rw [if_pos h0]
      exact ih hs curC chunks curH hnh (fun q hq => hps q (List.mem_cons_of_mem p hq))
        hhs hsep htrim hcc
    · rw [if_neg h0]
      by_cases h1 : hs ≠ [] ∧ pyStripS p ∈ hs
      · rw [if_pos h1]
        have hpsep : hasSubstrL "[SEP]".data (pyStripS p).data = false :=
          hps p (List.mem_cons_self p rest)
        have hptrim : trimAll (pyStripS p).data = (pyStripS p).data := trimAll_idem p.data
        have hrec := ih (hs.erase (pyStripS p)) []
          (if curH ≠ "" ∧ curC ≠ [] then chunks ++ [mkChunk curH curC] else chunks)
          (pyStripS p) hnh (fun q hq => hps q (List.mem_cons_of_mem p hq))
          (fun x hx => hhs x (List.mem_of_mem_erase hx)) hpsep hptrim
          (fun x hx => absurd hx (List.not_mem_nil x))
        refine le_trans hrec ?_
        have hchunks : List.countP (fun c => decide (sectionOfS c = h))
            (if curH ≠ "" ∧ curC ≠ [] then chunks ++ [mkChunk curH curC] else chunks) ≤
            List.countP (fun c => decide (sectionOfS c = h)) chunks +
              (if curH = h then 1 else 0) := by
          by_cases h2 : curH ≠ "" ∧ curC ≠ []
          · rw [if_pos h2, List.countP_append]
            have hsec := sectionOfS_mkChunk curH curC hsep htrim
            have hone2 : List.countP (fun c => decide (sectionOfS c = h)) [mkChunk curH curC] =
                if curH = h then 1 else 0 := by
              rw [List.countP_cons, List.countP_nil, Nat.zero_add]
              simp only [hsec]
              simp
            rw [hone2]
          · rw [if_neg h2]
            exact Nat.le_add_right _ _
        have hcount : (if pyStripS p = h then 1 else 0) +
            List.count h (hs.erase (pyStripS p)) ≤ List.count h hs := by
          by_cases hph : pyStripS p = h
          · rw [if_pos hph, hph, List.count_erase_self]
            have hpos : 0 < List.count h hs := List.count_pos_iff.mpr (hph ▸ h1.2)
            omega
          · rw [if_neg hph, List.count_erase_of_ne (fun hc => hph hc.symm) hs]
            omega
        omega
      · rw [if_neg h1]
        refine ih hs (curC ++ [pyStripS p]) chunks curH hnh
          (fun q hq => hps q (List.mem_cons_of_mem p hq)) hhs hsep htrim ?_
        intro x hx
        rcases List.mem_append.mp hx with hx | hx
        · exact hcc x hx
        · rcases List.mem_singleton.mp hx with rfl
          exact hps p (List.mem_cons_self p rest)

/-- C8 (amended): each match consumes exactly one occurrence of the matched
string from the candidate pool (`headings.remove` removes the first
occurrence), so over the whole walk the number of emitted chunks whose
section label equals a heading string `h` is bounded by the multiplicity of
`h` in the TOC-derived candidate list: a string listed once yields at most
one such chunk, while a string listed twice in the TOC can be matched twice.
Stated for body paragraphs and TOC headings free of a literal `[SEP]`
(which would corrupt the section label) and `h` distinct from the fallback
labels `"No Heading"` and `""`. -/
theorem c8_amended (toc text h : String)
    (hnh : h ≠ "No Heading") (hne : h ≠ "")
    (hbody : ∀ p ∈ (splitParasL text.data).map (fun l => (⟨l⟩ : String)),
      hasSubstrL "[SEP]".data (pyStripS p).data = false)
    (htoc : ∀ x ∈ parseHeadings toc, hasSubstrL "[SEP]".data x.data = false) :
    List.countP (fun c => decide (sectionOfS c = h)) (splitTextS toc text) ≤
      List.count h (parseHeadings toc) := by
  have hinv := splitLoop_section_count h
    ((splitParasL text.data).map (fun l => (⟨l⟩ : String)))
    (parseHeadings toc) [] [] "" hnh hbody htoc (by decide) (by decide)
    (fun x hx => absurd hx (List.not_mem_nil x))
  unfold splitTextS
  simpa [Ne.symm hne] using hinv

/-- C8 amended witness: with TOC `"- A\n- B"` the string `"A"` has
multiplicity one in the candidate pool, so at most one chunk of the walk of
`"A\n\nx\n\nB\n\ny"` carries section `"A"`. -/
theorem c8_amended_witness :
    List.countP (fun c => decide (sectionOfS c = "A"))
        (splitTextS "- A\n- B" "A\n\nx\n\nB\n\ny") ≤
      List.count "A" (parseHeadings "- A\n- B") :=
  c8_amended "- A\n- B" "A\n\nx\n\nB\n\ny" "A" (by decide) (by decide) (by decide) (by decide)

/-! ## Claim C9: chunk identifier derivation (amended) -/

/-- Shape of the metadata assigned by the chunk-object loop: position `i`
(0-based) of the build starting at index `n` carries `doc_id`
`filename ++ "_" ++ toString (n + i)` and `chunk_index` `n + i`. -/
theorem buildChunks_get (tc : String → Nat) (filename : String) :
    ∀ (l : List String) (n i : Nat) (hi : i < (buildChunks tc filename n l).length),
      ((buildChunks tc filename n l).get ⟨i, hi⟩).metadata.doc_id
          = filename ++ "_" ++ toString (n + i) ∧
      ((buildChunks tc filename n l).get ⟨i, hi⟩).metadata.chunk_index = n + i := by
  intro l
  induction l with
  | nil => intro n i hi; cases hi
  | cons c cs ih =>
    intro n i hi
    cases i with
    | zero => exact ⟨by simp [buildChunks], by simp [buildChunks]⟩
    | succ j =>
      have hj : j < (buildChunks tc filename (n + 1) cs).length := by
        have := hi
        simpa [buildChunks, Nat.succ_lt_succ_iff] using this
      have := ih (n + 1) j hj
      constructor
      · have h1 := this.1
        rw [show n + 1 + j = n + (j + 1) by omega] at h1
        simpa [buildChunks] using h1
      · have h2 := this.2
        rw [show n + 1 + j = n + (j + 1) by omega] at h2
        simpa [buildChunks] using h2

/-- C9 (amended): for every chunk emitted by `chunk_single_file`, `doc_id`
is the filename stem (spaces kept as-is) followed by `"_"` and the 1-based
emission index — the chunk index is embedded in `doc_id` itself rather than
`doc_id` being the bare stem with a separately formed chunk identifier. -/
theorem c9_amended (tc : String → Nat) (maxT fuel : Nat) (filename : String)
    (conv : Except Unit String) (r : List DocumentChunk)
    (h : chunkSingleFileFuel tc maxT fuel filename conv = some r) :
    ∀ (i : Nat) (hi : i < r.length),
      (r.get ⟨i, hi⟩).metadata.doc_id = filename ++ "_" ++ toString (i + 1) ∧
      (r.get ⟨i, hi⟩).metadata.chunk_index = i + 1 := by
  intro i hi
  have h' : (match (splitTextS (readDoc conv).1 (cleanupPlaintext (readDoc conv).2)).mapM
      (fun c => splitOversizedFuel tc maxT fuel c) with
    | none => none
    | some ls => some (buildChunks tc filename 1 ls.flatten)) = some r := h
  clear h
  cases hm : (splitTextS (readDoc conv).1 (cleanupPlaintext (readDoc conv).2)).mapM
      (fun c => splitOversizedFuel tc maxT fuel c) with
  | none => rw [hm] at h'; cases h'
  | some ls =>
    rw [hm] at h'
    cases h'
    have := buildChunks_get tc filename ls.flatten 1 i hi
    rw [show 1 + i = i + 1 by omega] at this
    exact this

/-- C9 amended witness: a concrete run with stem `"g"` and document `"hi"`:
the single chunk's `doc_id` is `"g_1"` and its index is 1. -/
theorem c9_amended_witness :
    ([DocumentChunk.mk (DocumentMetadata.mk "g_1" 1 2 "No Heading") "hi"].get
        ⟨0, by decide⟩).metadata.doc_id = "g" ++ "_" ++ toString (0 + 1) ∧
    ([DocumentChunk.mk (DocumentMetadata.mk "g_1" 1 2 "No Heading") "hi"].get
        ⟨0, by decide⟩).metadata.chunk_index = 0 + 1 :=
  c9_amended tcLen 300 2 "g" (.ok "hi")
    [DocumentChunk.mk (DocumentMetadata.mk "g_1" 1 2 "No Heading") "hi"]
    (by decide) 0 (by decide)

/-! ## Claim C10: non-empty, non-whitespace pieces -/

/-- C10 (amended): every successful run of the oversized splitter returns a
non-empty piece list (for every input, in particular every non-empty one),
every piece of a non-empty input is a non-empty string, and a piece can be
whitespace-only only when it is the unchanged input itself — so for inputs
that are not whitespace-only every emitted piece is non-whitespace-only, but
a whitespace-only input under budget is emitted as-is. -/
theorem c10_amended (tc : String → Nat) (maxT fuel : Nat) (t : String) (r : List String)
    (h : splitOversizedFuel tc maxT fuel t = some r) :
    r ≠ [] ∧ ∀ p ∈ r,
      (p = t ∨ pyStripS p ≠ "") ∧ (t ≠ "" → p ≠ "") ∧
      (pyStripS t ≠ "" → pyStripS p ≠ "") := by
  refine ⟨splitFuel_ne_nil tc maxT fuel t r h, ?_⟩
  intro p hp
  rcases splitFuel_pieces tc maxT fuel t r h p hp with rfl | hps
  · exact ⟨Or.inl rfl, fun ht => ht, fun ht => ht⟩
  · have hpne : pyStripS p ≠ "" := (pyStripS_ne_iff p).mpr hps
    have hpne' : p ≠ "" := fun hcon => hpne (by rw [hcon]; rfl)
    exact ⟨Or.inr hpne, fun _ => hpne', fun _ => hpne⟩

/-- C10 amended witness: a concrete terminating run — `"ab. cd."` with
budget 4 splits into two sentence pieces, both non-empty and
non-whitespace. -/
theorem c10_amended_witness :
    (["ab.", "cd."] : List String) ≠ [] ∧
    (("ab." : String) = "ab. cd." ∨ pyStripS "ab." ≠ "") ∧
    ("ab." : String) ≠ "" ∧ pyStripS "ab." ≠ "" :=
  ⟨(c10_amended tcLen 4 2 "ab. cd." ["ab.", "cd."] (by decide)).1,
   ((c10_amended tcLen 4 2 "ab. cd." ["ab.", "cd."] (by decide)).2 "ab."
      (List.mem_cons_self _ _)).1,
   ((c10_amended tcLen 4 2 "ab. cd." ["ab.", "cd."] (by decide)).2 "ab."
      (List.mem_cons_self _ _)).2.1 (by decide),
   ((c10_amended tcLen 4 2 "ab. cd." ["ab.", "cd."] (by decide)).2 "ab."
      (List.mem_cons_self _ _)).2.2 (by decide)⟩

/-- C10 (counterexample): a whitespace-only chunk text that is within budget
is returned as-is, so the splitter can emit a whitespace-only piece —
contradicting the claim that every emitted piece is non-whitespace-only.
`"   "` is non-empty, within a 300-token budget, and emitted unchanged. -/
theorem c10_whitespace_piece_emitted :
    splitOversizedFuel tcLen 300 1 "   " = some ["   "] ∧
    ("   " : String) ≠ "" ∧ pyStripS "   " = "" := by
  decide

end Vino
